import Mathlib

/-!
Verification of the Mushroom-Garden simulation core.

The TypeScript sources are embedded shallowly: JavaScript numbers become
rationals (`ℚ`), `Math.floor` becomes `Int.floor`, `Math.round` (round half
toward positive infinity) becomes `jround`, maps from energy kinds to counts
become a three-field structure, and every stateful method becomes a pure
function from the state it reads to the state it produces.
-/

namespace MushroomSim

/-- JavaScript `Math.round` on rationals: round half toward positive infinity. -/
def jround (x : ℚ) : ℚ := ((⌊x + 1/2⌋ : ℤ) : ℚ)

/-- JavaScript `Math.sign` on rationals. -/
def jsign (x : ℚ) : ℚ := if 0 < x then 1 else if x < 0 then -1 else 0

/-- `Dna.TOTAL_POINTS` (src/fungus-sim/Dna.ts line 9). -/
def TOTAL_POINTS : ℚ := 250

/-- `Dna.MAX_TRAIT_VALUE` (src/fungus-sim/Dna.ts line 12). -/
def MAX_TRAIT_VALUE : ℚ := 100

/-- The seven color traits of `Dna` (src/fungus-sim/Dna.ts lines 15-21). -/
structure Dna where
  green : ℚ
  red : ℚ
  brown : ℚ
  yellow : ℚ
  pink : ℚ
  blue : ℚ
  purple : ℚ
deriving DecidableEq, Repr, Inhabited

/-- Trait names, as used by `getTraitValue`/`setTraitValue` and the
sorted redistribution loop of `Dna.normalize`. -/
inductive TraitName where
  | green | red | brown | yellow | pink | blue | purple
deriving DecidableEq, Repr

/-- `Dna.getTraitValue` (src/fungus-sim/Dna.ts lines 114-125). -/
def Dna.getTraitValue (d : Dna) : TraitName → ℚ
  | .green => d.green
  | .red => d.red
  | .brown => d.brown
  | .yellow => d.yellow
  | .pink => d.pink
  | .blue => d.blue
  | .purple => d.purple

/-- `Dna.setTraitValue` (src/fungus-sim/Dna.ts lines 130-140). -/
def Dna.setTraitValue (d : Dna) : TraitName → ℚ → Dna
  | .green, v => { d with green := v }
  | .red, v => { d with red := v }
  | .brown, v => { d with brown := v }
  | .yellow, v => { d with yellow := v }
  | .pink, v => { d with pink := v }
  | .blue, v => { d with blue := v }
  | .purple, v => { d with purple := v }

/-- `Dna.getTotal` (src/fungus-sim/Dna.ts lines 241-244). -/
def Dna.total (d : Dna) : ℚ :=
  d.green + d.red + d.brown + d.yellow + d.pink + d.blue + d.purple

/-- The trait list in the declaration order used by `normalize` when it
builds the `traits` array (src/fungus-sim/Dna.ts lines 85-93). -/
def allTraits : List TraitName :=
  [.green, .red, .brown, .yellow, .pink, .blue, .purple]

/-- One step of the stable ascending insertion sort modelling JavaScript
`Array.prototype.sort` with comparator `(a, b) => a.value - b.value`
(src/fungus-sim/Dna.ts line 94).  ECMAScript sorts are stable, so an
element is inserted after all earlier elements of smaller-or-equal value. -/
def insertAsc (x : TraitName × ℚ) : List (TraitName × ℚ) → List (TraitName × ℚ)
  | [] => [x]
  | y :: ys => if x.2 ≤ y.2 then x :: y :: ys else y :: insertAsc x ys

/-- Stable ascending sort of `(trait, value)` pairs by value. -/
def sortAsc : List (TraitName × ℚ) → List (TraitName × ℚ)
  | [] => []
  | x :: xs => insertAsc x (sortAsc xs)

/-- The `traits` array of `(name, value)` pairs built by `normalize`
before sorting (src/fungus-sim/Dna.ts lines 85-93). -/
def Dna.traitPairs (d : Dna) : List (TraitName × ℚ) :=
  allTraits.map fun n => (n, d.getTraitValue n)

/-- The residual-redistribution loop of `Dna.normalize`
(src/fungus-sim/Dna.ts lines 96-106): walk the sorted trait names,
stopping when the remainder hits zero; each visited trait absorbs
`min(|remaining|, availableSpace) * sign(remaining)`. -/
def distribute : List TraitName → ℚ → Dna → Dna × ℚ
  | [], rem, d => (d, rem)
  | n :: ns, rem, d =>
    if rem = 0 then (d, rem)
    else
      let currentValue := d.getTraitValue n
      let availableSpace := MAX_TRAIT_VALUE - currentValue
      let toAdd := min |rem| availableSpace * jsign rem
      distribute ns (rem - toAdd) (d.setTraitValue n (currentValue + toAdd))

/-- The proportional scaling-and-rounding step of `Dna.normalize`
(src/fungus-sim/Dna.ts lines 59-66). -/
def roundScaled (d : Dna) : Dna :=
  let scale := TOTAL_POINTS / d.total
  ⟨jround (d.green * scale), jround (d.red * scale),
    jround (d.brown * scale), jround (d.yellow * scale),
    jround (d.pink * scale), jround (d.blue * scale),
    jround (d.purple * scale)⟩

/-- The per-trait cap enforcement of `Dna.normalize`
(src/fungus-sim/Dna.ts lines 69-75). -/
def capTraits (d : Dna) : Dna :=
  ⟨min d.green MAX_TRAIT_VALUE, min d.red MAX_TRAIT_VALUE,
    min d.brown MAX_TRAIT_VALUE, min d.yellow MAX_TRAIT_VALUE,
    min d.pink MAX_TRAIT_VALUE, min d.blue MAX_TRAIT_VALUE,
    min d.purple MAX_TRAIT_VALUE⟩

/-- `Dna.normalize` (src/fungus-sim/Dna.ts lines 48-109).  All-zero inputs
are shared out evenly; inputs already summing to `TOTAL_POINTS` are left
untouched; otherwise values are scaled proportionally, rounded, capped at
`MAX_TRAIT_VALUE`, and the residual is pushed into the lowest-valued
traits first. -/
def Dna.normalize (d : Dna) : Dna :=
  if d.total = 0 then
    let perTrait := min (TOTAL_POINTS / 7) MAX_TRAIT_VALUE
    ⟨perTrait, perTrait, perTrait, perTrait, perTrait, perTrait, perTrait⟩
  else if d.total = TOTAL_POINTS then d
  else
    let c := capTraits (roundScaled d)
    let diff := TOTAL_POINTS - c.total
    (distribute ((sortAsc c.traitPairs).map Prod.fst) diff c).1

/-- The `Dna` constructor (src/fungus-sim/Dna.ts lines 23-42): store the
seven raw values and normalize. -/
def mkDna (green red brown yellow pink blue purple : ℚ) : Dna :=
  Dna.normalize ⟨green, red, brown, yellow, pink, blue, purple⟩

/-- `Dna.clone` (src/fungus-sim/Dna.ts lines 205-215): rebuild through the
constructor from the current trait values. -/
def Dna.clone (d : Dna) : Dna :=
  mkDna d.green d.red d.brown d.yellow d.pink d.blue d.purple

/-- The trait array `[green, red, brown, yellow, pink, blue, purple]`
built by `Dna.mutate` (src/fungus-sim/Dna.ts lines 154-162). -/
def traitArray (d : Dna) : Fin 7 → ℚ :=
  ![d.green, d.red, d.brown, d.yellow, d.pink, d.blue, d.purple]

/-- One random decision of `Dna.mutate`: the source index, the target index
(the source rejection loop guarantees they differ), and the raw random
draw in `[0, 1)` that sizes the transfer. -/
structure MutChoice where
  fromIdx : Fin 7
  toIdx : Fin 7
  r : ℚ

/-- One point-transfer iteration of `Dna.mutate`
(src/fungus-sim/Dna.ts lines 167-188): skip if the target is at the cap,
otherwise move `min(⌊r * maxChange⌋ + 1, source, cap - target)` points. -/
def mutStep (maxChange : ℤ) (t : Fin 7 → ℚ) (c : MutChoice) : Fin 7 → ℚ :=
  if c.toIdx = c.fromIdx then t
  else if MAX_TRAIT_VALUE ≤ t c.toIdx then t
  else
    let transferAmount : ℤ := ⌊c.r * (maxChange : ℚ)⌋ + 1
    let actualTransfer : ℚ :=
      min (min (transferAmount : ℚ) (t c.fromIdx)) (MAX_TRAIT_VALUE - t c.toIdx)
    Function.update (Function.update t c.fromIdx (t c.fromIdx - actualTransfer))
      c.toIdx (t c.toIdx + actualTransfer)

/-- `Dna.mutate` (src/fungus-sim/Dna.ts lines 150-200): apply the chosen
point transfers to the trait array, then rebuild through the constructor. -/
def Dna.mutate (d : Dna) (mutationStrength : ℚ) (choices : List MutChoice) : Dna :=
  let maxChange : ℤ := ⌊TOTAL_POINTS * mutationStrength⌋
  let t := choices.foldl (mutStep maxChange) (traitArray d)
  mkDna (t 0) (t 1) (t 2) (t 3) (t 4) (t 5) (t 6)

/-- Total head-room below the cap over a list of trait names. -/
def spaceSum (ns : List TraitName) (d : Dna) : ℚ :=
  (ns.map fun n => MAX_TRAIT_VALUE - d.getTraitValue n).sum

/-- A rational that is an integer (JavaScript "integer-valued number"). -/
def IsIntValue (q : ℚ) : Prop := ∃ z : ℤ, q = (z : ℚ)


/-- The three energy kinds (Energy.ts `EnergyType`). -/
inductive EnergyType where
  | SUN_UNIT | SOIL_UNIT | NUTRITION_UNIT
deriving DecidableEq, Repr

/-- An energy wallet mapping each kind to a stored amount
(Energy.ts `EnergyWallet`, initialized by `createEmpty` to all zeros). -/
structure EnergyWallet where
  sun : ℚ
  soil : ℚ
  nutrition : ℚ
deriving DecidableEq, Repr, Inhabited

/-- `EnergyWalletHelper.get` (Energy.ts). -/
def EnergyWallet.get (w : EnergyWallet) : EnergyType → ℚ
  | .SUN_UNIT => w.sun
  | .SOIL_UNIT => w.soil
  | .NUTRITION_UNIT => w.nutrition

/-- The raw `Map.set` used inside `add`/`remove` (no clamping). -/
def EnergyWallet.setRaw (w : EnergyWallet) : EnergyType → ℚ → EnergyWallet
  | .SUN_UNIT, v => { w with sun := v }
  | .SOIL_UNIT, v => { w with soil := v }
  | .NUTRITION_UNIT, v => { w with nutrition := v }

/-- `EnergyWalletHelper.getTotalUnits` (Energy.ts). -/
def EnergyWallet.totalUnits (w : EnergyWallet) : ℚ := w.sun + w.soil + w.nutrition

/-- `EnergyWalletHelper.add` (Energy.ts lines under `static add`): floor the
amount; with a capacity, clamp by the remaining room measured against the
wallet total across all kinds.  Returns the updated wallet and the amount
actually added. -/
def walletAdd (w : EnergyWallet) (t : EnergyType) (amount : ℚ) (maxCapacity : Option ℚ) :
    EnergyWallet × ℚ :=
  let current := w.get t
  let toAdd : ℚ := ((⌊amount⌋ : ℤ) : ℚ)
  match maxCapacity with
  | some cap =>
      let available := cap - w.totalUnits
      let actualAdd := min toAdd available
      (w.setRaw t (current + actualAdd), actualAdd)
  | none => (w.setRaw t (current + toAdd), toAdd)

/-- `EnergyWalletHelper.remove` (Energy.ts): floor the amount, clamp to the
current stock of that kind.  Returns the updated wallet and the amount
actually removed. -/
def walletRemove (w : EnergyWallet) (t : EnergyType) (amount : ℚ) : EnergyWallet × ℚ :=
  let current := w.get t
  let toRemove : ℚ := ((⌊amount⌋ : ℤ) : ℚ)
  let actualRemove := min toRemove current
  (w.setRaw t (current - actualRemove), actualRemove)

/-- `EnergyWalletHelper.transfer` (Energy.ts): remove from the source, add to
the destination under its capacity, and re-add any shortfall to the source.
Returns the source wallet, the destination wallet and the amount added. -/
def walletTransfer (fromW toW : EnergyWallet) (t : EnergyType) (amount : ℚ)
    (toMaxCapacity : Option ℚ) : EnergyWallet × EnergyWallet × ℚ :=
  let r := walletRemove fromW t amount
  let a := walletAdd toW t r.2 toMaxCapacity
  if a.2 < r.2 then ((walletAdd r.1 t (r.2 - a.2) none).1, a.1, a.2)
  else (r.1, a.1, a.2)

/-- `Cell.updateMaxEnergy` (Cell.ts lines 68-74): capacity from the Pink
trait, 300 at pink 0 up to 3000 at pink 100. -/
def maxEnergyCapacity (pink : ℚ) : ℚ := 300 + pink / 100 * 2700

/-- The wallet built by the `Cell` constructor (Cell.ts lines 48-62): all
initial energy is stored as Nutrition, floored and clamped to capacity. -/
def mkCellWallet (initialEnergy capacity : ℚ) : EnergyWallet :=
  ⟨0, 0, min ((⌊initialEnergy⌋ : ℤ) : ℚ) capacity⟩

/-- `applyEnergyConversion` (SimulationEngine.ts lines 321-343) acting on the
cell's wallet (capacity from Pink DNA): if any Sun is held, remove it all and
add the same number of Nutrition units, then return; otherwise do the same
for Soil. -/
def applyEnergyConversion (w : EnergyWallet) (cap : ℚ) : EnergyWallet :=
  let sunUnits := w.get .SUN_UNIT
  let soilUnits := w.get .SOIL_UNIT
  if 0 < sunUnits then
    (walletAdd (walletRemove w .SUN_UNIT sunUnits).1 .NUTRITION_UNIT sunUnits (some cap)).1
  else if 0 < soilUnits then
    (walletAdd (walletRemove w .SOIL_UNIT soilUnits).1 .NUTRITION_UNIT soilUnits (some cap)).1
  else w

/-- The expansion gate of the growth pass (SimulationEngine.ts lines
122-135): the gate cost multiplier is `1 - blueRatio * 1.0` and the gate
compares `1.2 ×` that cost against the cell's TOTAL energy across all
kinds (`cell.getEnergy()`). -/
def expansionGate (baseCost blue totalEnergy : ℚ) : Prop :=
  baseCost * (1 - blue / 100 * 1) * (6/5) ≤ totalEnergy

instance (baseCost blue totalEnergy : ℚ) : Decidable (expansionGate baseCost blue totalEnergy) :=
  inferInstanceAs (Decidable (_ ≤ _))

/-- The cost actually charged by `attemptExpansion` (SimulationEngine.ts
lines 392-396): multiplier `1 - blueRatio * 0.8`, floored. -/
def actualExpansionCost (baseCost blue : ℚ) : ℚ :=
  ((⌊baseCost * (1 - blue / 100 * (8/10))⌋ : ℤ) : ℚ)

/-- The expansion cost as the specification words it for the growth-pass
gate: the base cost reduced proportionally to blue with an 80% maximum
reduction.  Kept separate from the code-derived definitions so the two can
be compared. -/
def specExpansionCost (baseCost blue : ℚ) : ℚ := baseCost * (1 - blue / 100 * (8/10))

/-- Result of one `attemptExpansion` call. -/
structure ExpansionOutcome where
  succeeded : Bool
  nutritionAfter : ℚ
  spawnedWallet : Option EnergyWallet
deriving DecidableEq, Repr

/-- `attemptExpansion` (SimulationEngine.ts lines 392-418) for a cell with
the given Nutrition stock, `emptyCount` empty cardinal neighbor tiles, and
the spawned cell's capacity: fail on insufficient Nutrition or no empty
neighbor; otherwise debit the floored cost and spawn a cell seeded with
half the cost. -/
def attemptExpansion (baseCost blue nutrition : ℚ) (emptyCount : ℕ) (newCellCapacity : ℚ) :
    ExpansionOutcome :=
  let actualCost := actualExpansionCost baseCost blue
  if nutrition < actualCost then ⟨false, nutrition, none⟩
  else if emptyCount = 0 then ⟨false, nutrition, none⟩
  else
    let startingEnergy : ℚ := ((⌊actualCost * (1/2)⌋ : ℤ) : ℚ)
    ⟨true, nutrition - actualCost, some (mkCellWallet startingEnergy newCellCapacity)⟩

/-- Fate of one spore during `updateSpores`. -/
inductive SporeOutcome where
  | germinated | kept | dropped
deriving DecidableEq, Repr

/-- One spore's step of `updateSpores` (SimulationEngine.ts lines 492-513):
the lifetime is decremented by `dt`; the spore germinates when its tile
exists, is unoccupied, and the decremented lifetime is still positive;
otherwise it is kept alive whenever the decremented lifetime is positive;
otherwise it is dropped. -/
def sporeStep (lifetime dt : ℚ) (tileExists occupied : Bool) : SporeOutcome :=
  if tileExists = true ∧ occupied = false ∧ 0 < lifetime - dt then .germinated
  else if 0 < lifetime - dt then .kept
  else .dropped

/-- One victim's drain inside `applyParasitism` (SimulationEngine.ts lines
289-304): the cell's single parasitism accumulator gains the continuous
per-neighbor drain, whole units are extracted, the victim loses
`min(units, stock)` Nutrition, and the parasite gains the drained amount
through its capacity-clamped wallet add.  Returns the new accumulator, the
parasite's wallet, and the victim's remaining Nutrition. -/
def parasitizeVictim (continuousDrain acc : ℚ) (parasite : EnergyWallet)
    (cap victim : ℚ) : ℚ × EnergyWallet × ℚ :=
  let acc1 := acc + continuousDrain
  let drainUnits : ℚ := ((⌊acc1⌋ : ℤ) : ℚ)
  let acc2 := acc1 - drainUnits
  if 0 < drainUnits then
    let drained := min ((⌊drainUnits⌋ : ℤ) : ℚ) victim
    let parasite1 := if 0 < drained
      then (walletAdd parasite .NUTRITION_UNIT drained (some cap)).1
      else parasite
    (acc2, parasite1, victim - drained)
  else (acc2, parasite, victim)

/-- The per-neighbor loop of `applyParasitism` over the list of adjacent
enemy cells' Nutrition stocks. -/
def parasitismFold (c cap : ℚ) : List ℚ → ℚ → EnergyWallet → ℚ × EnergyWallet × List ℚ
  | [], acc, w => (acc, w, [])
  | v :: vs, acc, w =>
    let step := parasitizeVictim c acc w cap v
    let rest := parasitismFold c cap vs step.1 step.2.1
    (rest.1, rest.2.1, step.2.2 :: rest.2.2)

/-- `applyParasitism` (SimulationEngine.ts lines 265-309) for one cell and
one tick: no-op when the red ratio is non-positive or there is no enemy
neighbor; otherwise drain each neighbor in turn with continuous rate
`redRatio × maxParasitismRate × dt` through the shared accumulator. -/
def applyParasitism (redRatio maxRate dt acc : ℚ) (parasite : EnergyWallet) (cap : ℚ)
    (victims : List ℚ) : ℚ × EnergyWallet × List ℚ :=
  if redRatio ≤ 0 then (acc, parasite, victims)
  else if victims = [] then (acc, parasite, victims)
  else parasitismFold (redRatio * maxRate * dt) cap victims acc parasite

/-- The eight neighbor offsets of `getAdjacentCells`
(SimulationEngine.ts lines 710-713): cardinal then diagonal. -/
def neighborOffsets : List (ℤ × ℤ) :=
  [(-1, 0), (1, 0), (0, -1), (0, 1), (-1, -1), (-1, 1), (1, -1), (1, 1)]

/-- 8-neighborhood adjacency of grid positions. -/
def adj8 (p q : ℤ × ℤ) : Prop :=
  ∃ o ∈ neighborOffsets, q = (p.1 + o.1, p.2 + o.2)

instance (p q : ℤ × ℤ) : Decidable (adj8 p q) :=
  inferInstanceAs (Decidable (∃ o ∈ neighborOffsets, q = (p.1 + o.1, p.2 + o.2)))

/-- The state of one cell that `splitDisconnectedFungi` reads and rebuilds:
its grid position, its energy wallet, and its mushroom state. -/
structure CellRec where
  pos : ℤ × ℤ
  wallet : EnergyWallet
  hasMushroom : Bool
  mushroomGrowth : ℚ
deriving DecidableEq, Repr, Inhabited

/-- Boolean adjacency on cells (by position). -/
def cellAdjB (a b : CellRec) : Bool := decide (adj8 a.pos b.pos)

/-- The flood fill of `splitDisconnectedFungi` (SimulationEngine.ts lines
569-597), with the BFS queue as `frontier` and the not-yet-visited cells of
the fungus as `pending`: each step pops one frontier cell, moves its
unvisited neighbors from `pending` into the frontier, and accumulates them
into the reached group.  Returns the reached cells and the untouched rest. -/
def flood (frontier pending : List CellRec) : List CellRec × List CellRec :=
  match frontier with
  | [] => ([], pending)
  | f :: fs =>
    let nbrs := pending.filter fun q => cellAdjB f q
    let rest := pending.filter fun q => ! cellAdjB f q
    let out := flood (fs ++ nbrs) rest
    (nbrs ++ out.1, out.2)
termination_by (pending.length, frontier.length)
decreasing_by
  have hperm := List.filter_append_perm (fun q => cellAdjB f q) pending
  have hlen : (pending.filter fun q => cellAdjB f q).length +
      (pending.filter fun q => ! cellAdjB f q).length = pending.length := by
    have h1 := hperm.length_eq
    rw [List.length_append] at h1
    exact h1
  rcases Nat.eq_zero_or_pos (pending.filter fun q => cellAdjB f q).length with h0 | h0
  · have heq : (pending.filter fun q => ! cellAdjB f q).length = pending.length := by omega
    rw [heq]
    refine Prod.Lex.right _ ?_
    simp only [List.length_append, List.length_cons]
    omega
  · exact Prod.Lex.left _ _ (by omega)

/-- The outer loop of `splitDisconnectedFungi` gathering connected groups,
with a step-count fuel (one unit per discovered group; `cells.length` always
suffices since every group is nonempty). -/
def componentsAux : ℕ → List CellRec → List (List CellRec)
  | 0, _ => []
  | _ + 1, [] => []
  | fuel + 1, c :: rest =>
    let fl := flood [c] rest
    (c :: fl.1) :: componentsAux fuel fl.2

/-- The connected groups of a fungus's cells under 8-neighborhood adjacency,
in discovery order. -/
def componentsOf (cells : List CellRec) : List (List CellRec) :=
  componentsAux cells.length cells

/-- Stable descending insertion mirroring the JavaScript sort
`groups.sort((a, b) => b.length - a.length)` (SimulationEngine.ts line 602). -/
def insertDesc (g : List CellRec) : List (List CellRec) → List (List CellRec)
  | [] => [g]
  | h :: t => if h.length ≤ g.length then g :: h :: t else h :: insertDesc g t

/-- Stable sort of the groups by size, largest first. -/
def sortGroupsDesc : List (List CellRec) → List (List CellRec)
  | [] => []
  | g :: gs => insertDesc g (sortGroupsDesc gs)

/-- An organism as `splitDisconnectedFungi` sees it. -/
structure FungusRec where
  id : ℕ
  dna : Dna
  generation : ℕ
deriving Repr, Inhabited

/-- The cell recreation of the split (SimulationEngine.ts lines 610-624 and
the `Cell` constructor): a new cell at the same position whose wallet is
seeded with the old cell's TOTAL energy as Nutrition (floored, clamped to
the new capacity), the mushroom flag copied, and the growth copied only
when a mushroom is present. -/
def recreateCell (c : CellRec) (cap : ℚ) : CellRec :=
  { pos := c.pos
    wallet := mkCellWallet c.wallet.totalUnits cap
    hasMushroom := c.hasMushroom
    mushroomGrowth := if c.hasMushroom then c.mushroomGrowth else 0 }

/-- One pass of `splitDisconnectedFungi` (SimulationEngine.ts lines 561-629)
over a single fungus: compute the connected groups; if more than one, the
largest (first under the stable descending sort) keeps the fungus, and each
smaller group is rehomed onto a new fungus (`new Fungus(fungus.dna.clone(),
fungus.generation)` with the next free ids) whose cells are recreated. -/
def splitFungus (f : FungusRec) (cells : List CellRec) (nextId : ℕ) :
    List (FungusRec × List CellRec) :=
  if cells.length ≤ 1 then [(f, cells)]
  else
    let groups := componentsOf cells
    if groups.length ≤ 1 then [(f, cells)]
    else
      let sorted := sortGroupsDesc groups
      let newDna := f.dna.clone
      let cap := maxEnergyCapacity newDna.pink
      (f, sorted.headI) ::
        (sorted.tail.enum.map fun ig =>
          (⟨nextId + ig.1, newDna, f.generation⟩,
            ig.2.map fun c => recreateCell c cap))

/-- A spore as `updateSpores`/`germinateSpore` see it. -/
structure SporeRec where
  pos : ℤ × ℤ
  dna : Dna
  lifetime : ℚ
  parentFungusId : ℕ
deriving Repr

/-- `germinateSpore` (SimulationEngine.ts lines 518-526): the new fungus is
created as `new Fungus(spore.dna, 0)` — generation 0 regardless of the
parent — and its first cell starts with 50 energy. -/
def germinateSpore (s : SporeRec) (nextId : ℕ) : FungusRec × CellRec :=
  (⟨nextId, s.dna, 0⟩,
    ⟨s.pos, mkCellWallet 50 (maxEnergyCapacity s.dna.pink), false, 0⟩)

/-- Adjacency restricted to the cells of one fungus (the edges the flood
fill of `splitDisconnectedFungi` follows). -/
def adjWithin (S : List CellRec) (a b : CellRec) : Prop :=
  a ∈ S ∧ b ∈ S ∧ adj8 a.pos b.pos

/-- 8-neighborhood connectivity within a cell list: the reflexive-transitive
closure of restricted adjacency.  This is the mathematical notion of "same
connected component" the split is specified against. -/
def ConnIn (S : List CellRec) (a b : CellRec) : Prop :=
  Relation.ReflTransGen (adjWithin S) a b

/-! ### Properties of trait normalization -/

lemma Dna.getTraitValue_setTraitValue_self (d : Dna) (n : TraitName) (v : ℚ) :
    (d.setTraitValue n v).getTraitValue n = v := by
  cases n <;> rfl

lemma Dna.getTraitValue_setTraitValue_ne (d : Dna) {m n : TraitName} (v : ℚ) (h : m ≠ n) :
    (d.setTraitValue n v).getTraitValue m = d.getTraitValue m := by
  cases m <;> cases n <;> first | rfl | exact absurd rfl h

lemma Dna.setTraitValue_total (d : Dna) (n : TraitName) (v : ℚ) :
    (d.setTraitValue n v).total = d.total - d.getTraitValue n + v := by
  cases n <;> simp [Dna.setTraitValue, Dna.total, Dna.getTraitValue] <;> ring

lemma jsign_pos {x : ℚ} (h : 0 < x) : jsign x = 1 := by simp [jsign, h]

lemma jsign_neg {x : ℚ} (h : x < 0) : jsign x = -1 := by
  simp [jsign, h, asymm h]

lemma distribute_nil (rem : ℚ) (d : Dna) : distribute [] rem d = (d, rem) := rfl

lemma distribute_zero (ns : List TraitName) (d : Dna) : distribute ns 0 d = (d, 0) := by
  cases ns <;> simp [distribute]

lemma distribute_cons {rem : ℚ} (h : rem ≠ 0) (n : TraitName) (ns : List TraitName) (d : Dna) :
    distribute (n :: ns) rem d =
      distribute ns
        (rem - min |rem| (MAX_TRAIT_VALUE - d.getTraitValue n) * jsign rem)
        (d.setTraitValue n
          (d.getTraitValue n + min |rem| (MAX_TRAIT_VALUE - d.getTraitValue n) * jsign rem)) := by
  simp [distribute, h]

lemma distribute_total (ns : List TraitName) (rem : ℚ) (d : Dna) :
    ((distribute ns rem d).1).total + (distribute ns rem d).2 = d.total + rem := by
  induction ns generalizing rem d with
  | nil => simp [distribute_nil]
  | cons n ns ih =>
    by_cases h : rem = 0
    · simp [h, distribute_zero]
    · rw [distribute_cons h, ih, Dna.setTraitValue_total]
      ring

lemma step_abs {rem s : ℚ} (h : rem ≠ 0) (hs : 0 ≤ s) :
    |rem - min |rem| s * jsign rem| = |rem| - min |rem| s := by
  rcases lt_or_gt_of_ne h with hneg | hpos
  · rw [jsign_neg hneg]
    have h1 : min |rem| s ≤ -rem :=
      le_trans (min_le_left |rem| s) (le_of_eq (abs_of_neg hneg))
    have h0 : 0 ≤ min |rem| s := le_min (abs_nonneg rem) hs
    rw [abs_of_nonpos (by linarith), abs_of_neg hneg]
    ring
  · rw [jsign_pos hpos]
    have h1 : min |rem| s ≤ rem :=
      le_trans (min_le_left |rem| s) (le_of_eq (abs_of_pos hpos))
    have h0 : 0 ≤ min |rem| s := le_min (abs_nonneg rem) hs
    rw [abs_of_nonneg (by linarith), abs_of_pos hpos]
    ring

lemma distribute_getTraitValue_not_mem {n : TraitName} :
    ∀ (ns : List TraitName) (rem : ℚ) (d : Dna), n ∉ ns →
      ((distribute ns rem d).1).getTraitValue n = d.getTraitValue n
  | [], rem, d, _ => by simp [distribute_nil]
  | m :: ms, rem, d, hmem => by
    by_cases h : rem = 0
    · simp [h, distribute_zero]
    · rw [distribute_cons h]
      rw [distribute_getTraitValue_not_mem ms _ _ (fun hc => hmem (List.mem_cons_of_mem _ hc))]
      exact Dna.getTraitValue_setTraitValue_ne _ _ (fun hc => hmem (hc ▸ List.mem_cons_self _ _))

lemma spaceSum_nil (d : Dna) : spaceSum [] d = 0 := rfl

lemma spaceSum_cons (n : TraitName) (ns : List TraitName) (d : Dna) :
    spaceSum (n :: ns) d = (MAX_TRAIT_VALUE - d.getTraitValue n) + spaceSum ns d := by
  simp [spaceSum]

lemma spaceSum_congr {ns : List TraitName} {d e : Dna}
    (h : ∀ n ∈ ns, d.getTraitValue n = e.getTraitValue n) : spaceSum ns d = spaceSum ns e := by
  unfold spaceSum
  congr 1
  exact List.map_congr_left fun n hn => by rw [h n hn]

lemma spaceSum_nonneg {ns : List TraitName} {d : Dna}
    (h : ∀ n ∈ ns, d.getTraitValue n ≤ MAX_TRAIT_VALUE) : 0 ≤ spaceSum ns d := by
  refine List.sum_nonneg fun x hx => ?_
  obtain ⟨n, hn, rfl⟩ := List.mem_map.mp hx
  have := h n hn
  linarith

lemma distribute_snd_eq_zero :
    ∀ (ns : List TraitName) (rem : ℚ) (d : Dna), ns.Nodup →
      (∀ n ∈ ns, d.getTraitValue n ≤ MAX_TRAIT_VALUE) →
      |rem| ≤ spaceSum ns d → (distribute ns rem d).2 = 0
  | [], rem, d, _, _, hle => by
    rw [distribute_nil]
    simpa using abs_nonpos_iff.mp (by simpa [spaceSum_nil] using hle)
  | n :: ns, rem, d, hnodup, hcap, hle => by
    by_cases h : rem = 0
    · simp [h, distribute_zero]
    · rw [distribute_cons h]
      have hs : 0 ≤ MAX_TRAIT_VALUE - d.getTraitValue n := by
        have := hcap n (List.mem_cons_self _ _)
        linarith
      have hnmem : n ∉ ns := (List.nodup_cons.mp hnodup).1
      have hvals : ∀ m ∈ ns,
          (d.setTraitValue n (d.getTraitValue n +
            min |rem| (MAX_TRAIT_VALUE - d.getTraitValue n) * jsign rem)).getTraitValue m
          = d.getTraitValue m := fun m hm =>
        Dna.getTraitValue_setTraitValue_ne _ _ (fun hc => hnmem (hc ▸ hm))
      refine distribute_snd_eq_zero ns _ _ (List.nodup_cons.mp hnodup).2
        (fun m hm => (hvals m hm) ▸ hcap m (List.mem_cons_of_mem _ hm)) ?_
      rw [step_abs h hs, spaceSum_congr hvals]
      rw [spaceSum_cons] at hle
      rcases le_total |rem| (MAX_TRAIT_VALUE - d.getTraitValue n) with h1 | h1
      · rw [min_eq_left h1]
        have h2 : 0 ≤ spaceSum ns d :=
          spaceSum_nonneg fun m hm => hcap m (List.mem_cons_of_mem _ hm)
        linarith
      · rw [min_eq_right h1]
        linarith

lemma insertAsc_perm (x : TraitName × ℚ) (l : List (TraitName × ℚ)) :
    (insertAsc x l).Perm (x :: l) := by
  induction l with
  | nil => exact List.Perm.refl _
  | cons y ys ih =>
    by_cases h : x.2 ≤ y.2
    · simp [insertAsc, h]
    · simp only [insertAsc, if_neg h]
      exact (ih.cons y).trans (List.Perm.swap x y ys)

lemma sortAsc_perm (l : List (TraitName × ℚ)) : (sortAsc l).Perm l := by
  induction l with
  | nil => exact List.Perm.refl _
  | cons x xs ih => exact (insertAsc_perm x (sortAsc xs)).trans (ih.cons x)

lemma traitPairs_map_fst (d : Dna) : d.traitPairs.map Prod.fst = allTraits := by
  rfl

lemma sortedNames_perm (d : Dna) :
    ((sortAsc d.traitPairs).map Prod.fst).Perm allTraits := by
  have h := (sortAsc_perm d.traitPairs).map Prod.fst
  rwa [traitPairs_map_fst] at h

lemma allTraits_nodup : allTraits.Nodup := by decide

lemma sortedNames_nodup (d : Dna) : ((sortAsc d.traitPairs).map Prod.fst).Nodup :=
  (sortedNames_perm d).nodup_iff.mpr allTraits_nodup

lemma spaceSum_perm {ns ms : List TraitName} (h : ns.Perm ms) (d : Dna) :
    spaceSum ns d = spaceSum ms d :=
  (h.map _).sum_eq

lemma spaceSum_allTraits (d : Dna) :
    spaceSum allTraits d = 7 * MAX_TRAIT_VALUE - d.total := by
  simp [spaceSum, allTraits, Dna.getTraitValue, Dna.total, MAX_TRAIT_VALUE]
  ring

lemma distribute_le_max :
    ∀ (ns : List TraitName) (rem : ℚ) (d : Dna),
      (∀ m, d.getTraitValue m ≤ MAX_TRAIT_VALUE) →
      ∀ m, ((distribute ns rem d).1).getTraitValue m ≤ MAX_TRAIT_VALUE
  | [], rem, d, hcap, m => by simpa [distribute_nil] using hcap m
  | n :: ns, rem, d, hcap, m => by
    by_cases h : rem = 0
    · simpa [h, distribute_zero] using hcap m
    · rw [distribute_cons h]
      refine distribute_le_max ns _ _ (fun k => ?_) m
      by_cases hk : k = n
      · subst hk
        rw [Dna.getTraitValue_setTraitValue_self]
        have hs : 0 ≤ MAX_TRAIT_VALUE - d.getTraitValue k := by
          have := hcap k; linarith
        rcases lt_or_gt_of_ne h with hneg | hpos
        · rw [jsign_neg hneg]
          have h0 : 0 ≤ min |rem| (MAX_TRAIT_VALUE - d.getTraitValue k) :=
            le_min (abs_nonneg rem) hs
          have := hcap k
          linarith
        · rw [jsign_pos hpos]
          have h1 : min |rem| (MAX_TRAIT_VALUE - d.getTraitValue k) ≤
              MAX_TRAIT_VALUE - d.getTraitValue k := min_le_right _ _
          linarith
      · rw [Dna.getTraitValue_setTraitValue_ne _ _ hk]
        exact hcap k

lemma distribute_mono_of_nonneg :
    ∀ (ns : List TraitName) (rem : ℚ) (d : Dna), 0 ≤ rem →
      (∀ m, d.getTraitValue m ≤ MAX_TRAIT_VALUE) →
      ∀ m, d.getTraitValue m ≤ ((distribute ns rem d).1).getTraitValue m
  | [], rem, d, _, _, m => by simp [distribute_nil]
  | n :: ns, rem, d, hrem, hcap, m => by
    by_cases h : rem = 0
    · simp [h, distribute_zero]
    · have hpos : 0 < rem := lt_of_le_of_ne hrem (Ne.symm h)
      have hs : 0 ≤ MAX_TRAIT_VALUE - d.getTraitValue n := by
        have := hcap n; linarith
      have htoAdd : 0 ≤ min |rem| (MAX_TRAIT_VALUE - d.getTraitValue n) * jsign rem := by
        rw [jsign_pos hpos]
        have := le_min (abs_nonneg rem) hs
        linarith
      have hrem2 : 0 ≤ rem - min |rem| (MAX_TRAIT_VALUE - d.getTraitValue n) * jsign rem := by
        rw [jsign_pos hpos]
        have h3 : min |rem| (MAX_TRAIT_VALUE - d.getTraitValue n) ≤ rem := by
          rw [abs_of_pos hpos]
          exact min_le_left _ _
        linarith
      have hcap2 : ∀ k, (d.setTraitValue n (d.getTraitValue n +
          min |rem| (MAX_TRAIT_VALUE - d.getTraitValue n) * jsign rem)).getTraitValue k
          ≤ MAX_TRAIT_VALUE := by
        intro k
        by_cases hk : k = n
        · subst hk
          rw [Dna.getTraitValue_setTraitValue_self, jsign_pos hpos]
          have h1 : min |rem| (MAX_TRAIT_VALUE - d.getTraitValue k) ≤
              MAX_TRAIT_VALUE - d.getTraitValue k := min_le_right _ _
          linarith
        · rw [Dna.getTraitValue_setTraitValue_ne _ _ hk]
          exact hcap k
      rw [distribute_cons h]
      refine le_trans ?_ (distribute_mono_of_nonneg ns _ _ hrem2 hcap2 m)
      by_cases hk : m = n
      · subst hk
        rw [Dna.getTraitValue_setTraitValue_self]
        linarith
      · rw [Dna.getTraitValue_setTraitValue_ne _ _ hk]

lemma distribute_ge_of_nonpos :
    ∀ (ns : List TraitName) (rem : ℚ) (d : Dna), rem ≤ 0 →
      (∀ m, d.getTraitValue m ≤ MAX_TRAIT_VALUE) →
      ∀ m, d.getTraitValue m + rem ≤ ((distribute ns rem d).1).getTraitValue m
  | [], rem, d, hrem, _, m => by
    rw [distribute_nil]
    simp only
    linarith
  | n :: ns, rem, d, hrem, hcap, m => by
    by_cases h : rem = 0
    · simp [h, distribute_zero]
    · have hneg : rem < 0 := lt_of_le_of_ne hrem h
      have hs : 0 ≤ MAX_TRAIT_VALUE - d.getTraitValue n := by
        have := hcap n; linarith
      have habs : |rem| = -rem := abs_of_neg hneg
      have hmin0 : 0 ≤ min |rem| (MAX_TRAIT_VALUE - d.getTraitValue n) :=
        le_min (abs_nonneg rem) hs
      have hminr : min |rem| (MAX_TRAIT_VALUE - d.getTraitValue n) ≤ -rem := by
        have := min_le_left |rem| (MAX_TRAIT_VALUE - d.getTraitValue n)
        linarith
      have htoAdd : min |rem| (MAX_TRAIT_VALUE - d.getTraitValue n) * jsign rem =
          -(min |rem| (MAX_TRAIT_VALUE - d.getTraitValue n)) := by
        rw [jsign_neg hneg]; ring
      have hrem2 : rem - min |rem| (MAX_TRAIT_VALUE - d.getTraitValue n) * jsign rem ≤ 0 := by
        rw [htoAdd]; linarith
      have hcap2 : ∀ k, (d.setTraitValue n (d.getTraitValue n +
          min |rem| (MAX_TRAIT_VALUE - d.getTraitValue n) * jsign rem)).getTraitValue k
          ≤ MAX_TRAIT_VALUE := by
        intro k
        by_cases hk : k = n
        · subst hk
          rw [Dna.getTraitValue_setTraitValue_self, htoAdd]
          have := hcap k
          linarith
        · rw [Dna.getTraitValue_setTraitValue_ne _ _ hk]
          exact hcap k
      rw [distribute_cons h]
      have hrec := distribute_ge_of_nonpos ns _ _ hrem2 hcap2 m
      by_cases hk : m = n
      · subst hk
        rw [Dna.getTraitValue_setTraitValue_self] at hrec
        calc d.getTraitValue m + rem
            = d.getTraitValue m +
                min |rem| (MAX_TRAIT_VALUE - d.getTraitValue m) * jsign rem +
                (rem - min |rem| (MAX_TRAIT_VALUE - d.getTraitValue m) * jsign rem) := by ring
          _ ≤ _ := hrec
      · rw [Dna.getTraitValue_setTraitValue_ne _ _ hk] at hrec
        have : d.getTraitValue m + rem ≤ d.getTraitValue m +
            (rem - min |rem| (MAX_TRAIT_VALUE - d.getTraitValue n) * jsign rem) := by
          rw [htoAdd]; linarith
        linarith

lemma IsIntValue.add {a b : ℚ} (ha : IsIntValue a) (hb : IsIntValue b) : IsIntValue (a + b) := by
  obtain ⟨x, rfl⟩ := ha; obtain ⟨y, rfl⟩ := hb
  exact ⟨x + y, by push_cast; ring⟩

lemma IsIntValue.sub {a b : ℚ} (ha : IsIntValue a) (hb : IsIntValue b) : IsIntValue (a - b) := by
  obtain ⟨x, rfl⟩ := ha; obtain ⟨y, rfl⟩ := hb
  exact ⟨x - y, by push_cast; ring⟩

lemma IsIntValue.mul {a b : ℚ} (ha : IsIntValue a) (hb : IsIntValue b) : IsIntValue (a * b) := by
  obtain ⟨x, rfl⟩ := ha; obtain ⟨y, rfl⟩ := hb
  exact ⟨x * y, by push_cast; ring⟩

lemma IsIntValue.min {a b : ℚ} (ha : IsIntValue a) (hb : IsIntValue b) :
    IsIntValue (min a b) := by
  rcases le_total a b with h | h
  · rwa [min_eq_left h]
  · rwa [min_eq_right h]

lemma IsIntValue.abs {a : ℚ} (ha : IsIntValue a) : IsIntValue |a| := by
  rcases le_total 0 a with h | h
  · rwa [abs_of_nonneg h]
  · rw [abs_of_nonpos h]
    obtain ⟨x, rfl⟩ := ha
    exact ⟨-x, by push_cast; ring⟩

lemma IsIntValue.jsign (a : ℚ) : IsIntValue (jsign a) := by
  unfold MushroomSim.jsign
  by_cases h1 : 0 < a
  · exact ⟨1, by simp [h1]⟩
  · by_cases h2 : a < 0
    · exact ⟨-1, by simp [h1, h2]⟩
    · exact ⟨0, by simp [h1, h2]⟩

lemma IsIntValue.jround (a : ℚ) : IsIntValue (jround a) := ⟨⌊a + 1/2⌋, rfl⟩

lemma distribute_int :
    ∀ (ns : List TraitName) (rem : ℚ) (d : Dna), IsIntValue rem →
      (∀ m, IsIntValue (d.getTraitValue m)) →
      ∀ m, IsIntValue (((distribute ns rem d).1).getTraitValue m)
  | [], rem, d, _, hint, m => by
    rw [distribute_nil]; exact hint m
  | n :: ns, rem, d, hrem, hint, m => by
    by_cases h : rem = 0
    · rw [h, distribute_zero]; exact hint m
    · rw [distribute_cons h]
      have hadd : IsIntValue (min |rem| (MAX_TRAIT_VALUE - d.getTraitValue n) * jsign rem) :=
        (IsIntValue.min hrem.abs (IsIntValue.sub ⟨100, rfl⟩ (hint n))).mul (IsIntValue.jsign rem)
      refine distribute_int ns _ _ (hrem.sub hadd) (fun k => ?_) m
      by_cases hk : k = n
      · subst hk
        rw [Dna.getTraitValue_setTraitValue_self]
        exact (hint k).add hadd
      · rw [Dna.getTraitValue_setTraitValue_ne _ _ hk]
        exact hint k

lemma jround_le (x : ℚ) : jround x ≤ x + 1/2 := by
  unfold jround
  exact_mod_cast Int.floor_le (x + 1/2)

lemma jround_nonneg {x : ℚ} (h : 0 ≤ x) : 0 ≤ jround x := by
  unfold jround
  have : (0:ℤ) ≤ ⌊x + 1/2⌋ := Int.floor_nonneg.mpr (by linarith)
  exact_mod_cast this

lemma capTraits_getTraitValue_le (d : Dna) (n : TraitName) :
    (capTraits d).getTraitValue n ≤ MAX_TRAIT_VALUE := by
  cases n <;> exact min_le_right _ _

lemma capTraits_total_le (d : Dna) (h : d.total ≠ 0) :
    (capTraits (roundScaled d)).total ≤ TOTAL_POINTS + 7/2 := by
  have hsum : d.green * (TOTAL_POINTS / d.total) + d.red * (TOTAL_POINTS / d.total) +
      d.brown * (TOTAL_POINTS / d.total) + d.yellow * (TOTAL_POINTS / d.total) +
      d.pink * (TOTAL_POINTS / d.total) + d.blue * (TOTAL_POINTS / d.total) +
      d.purple * (TOTAL_POINTS / d.total) = TOTAL_POINTS := by
    have : d.total * (TOTAL_POINTS / d.total) = TOTAL_POINTS := by
      field_simp
    calc d.green * (TOTAL_POINTS / d.total) + d.red * (TOTAL_POINTS / d.total) +
        d.brown * (TOTAL_POINTS / d.total) + d.yellow * (TOTAL_POINTS / d.total) +
        d.pink * (TOTAL_POINTS / d.total) + d.blue * (TOTAL_POINTS / d.total) +
        d.purple * (TOTAL_POINTS / d.total)
        = d.total * (TOTAL_POINTS / d.total) := by unfold Dna.total; ring
      _ = TOTAL_POINTS := this
  have h1 := jround_le (d.green * (TOTAL_POINTS / d.total))
  have h2 := jround_le (d.red * (TOTAL_POINTS / d.total))
  have h3 := jround_le (d.brown * (TOTAL_POINTS / d.total))
  have h4 := jround_le (d.yellow * (TOTAL_POINTS / d.total))
  have h5 := jround_le (d.pink * (TOTAL_POINTS / d.total))
  have h6 := jround_le (d.blue * (TOTAL_POINTS / d.total))
  have h7 := jround_le (d.purple * (TOTAL_POINTS / d.total))
  have c1 : (capTraits (roundScaled d)).green ≤ jround (d.green * (TOTAL_POINTS / d.total)) :=
    min_le_left _ _
  have c2 : (capTraits (roundScaled d)).red ≤ jround (d.red * (TOTAL_POINTS / d.total)) :=
    min_le_left _ _
  have c3 : (capTraits (roundScaled d)).brown ≤ jround (d.brown * (TOTAL_POINTS / d.total)) :=
    min_le_left _ _
  have c4 : (capTraits (roundScaled d)).yellow ≤ jround (d.yellow * (TOTAL_POINTS / d.total)) :=
    min_le_left _ _
  have c5 : (capTraits (roundScaled d)).pink ≤ jround (d.pink * (TOTAL_POINTS / d.total)) :=
    min_le_left _ _
  have c6 : (capTraits (roundScaled d)).blue ≤ jround (d.blue * (TOTAL_POINTS / d.total)) :=
    min_le_left _ _
  have c7 : (capTraits (roundScaled d)).purple ≤ jround (d.purple * (TOTAL_POINTS / d.total)) :=
    min_le_left _ _
  unfold Dna.total
  linarith

/-- The core totality lemma: `Dna.normalize` always returns trait values
summing to exactly `TOTAL_POINTS`, whatever the raw inputs. -/
theorem Dna.normalize_total (d : Dna) : (Dna.normalize d).total = TOTAL_POINTS := by
  unfold Dna.normalize
  by_cases h0 : d.total = 0
  · rw [if_pos h0]
    have hmin : min (TOTAL_POINTS / 7) MAX_TRAIT_VALUE = TOTAL_POINTS / 7 := by
      rw [min_eq_left]
      norm_num [TOTAL_POINTS, MAX_TRAIT_VALUE]
    simp only [hmin, Dna.total]
    norm_num [TOTAL_POINTS]
  · rw [if_neg h0]
    by_cases h1 : d.total = TOTAL_POINTS
    · rw [if_pos h1]; exact h1
    · rw [if_neg h1]
      show ((distribute ((sortAsc (capTraits (roundScaled d)).traitPairs).map Prod.fst)
        (TOTAL_POINTS - (capTraits (roundScaled d)).total) (capTraits (roundScaled d))).1).total
        = TOTAL_POINTS
      have hcap : ∀ n ∈ ((sortAsc (capTraits (roundScaled d)).traitPairs).map Prod.fst),
          (capTraits (roundScaled d)).getTraitValue n ≤ MAX_TRAIT_VALUE :=
        fun n _ => capTraits_getTraitValue_le _ n
      have hct : (capTraits (roundScaled d)).total ≤ TOTAL_POINTS + 7/2 :=
        capTraits_total_le d h0
      have h250 : TOTAL_POINTS = 250 := rfl
      have h100 : MAX_TRAIT_VALUE = 100 := rfl
      have habs : |TOTAL_POINTS - (capTraits (roundScaled d)).total| ≤
          spaceSum ((sortAsc (capTraits (roundScaled d)).traitPairs).map Prod.fst)
            (capTraits (roundScaled d)) := by
        rw [spaceSum_perm (sortedNames_perm _), spaceSum_allTraits]
        rcases abs_cases (TOTAL_POINTS - (capTraits (roundScaled d)).total) with
          ⟨heq, _⟩ | ⟨heq, _⟩ <;> rw [heq] <;> linarith
      have hsnd := distribute_snd_eq_zero _ _ _ (sortedNames_nodup _) hcap habs
      have htot := distribute_total
        ((sortAsc (capTraits (roundScaled d)).traitPairs).map Prod.fst)
        (TOTAL_POINTS - (capTraits (roundScaled d)).total) (capTraits (roundScaled d))
      rw [hsnd, add_zero] at htot
      rw [htot]
      ring

lemma capRound_get (d : Dna) (n : TraitName) :
    (capTraits (roundScaled d)).getTraitValue n =
      min (jround (d.getTraitValue n * (TOTAL_POINTS / d.total))) MAX_TRAIT_VALUE := by
  cases n <;> rfl

lemma Dna.total_eq_sum_traits (d : Dna) :
    d.total = d.getTraitValue .green + d.getTraitValue .red + d.getTraitValue .brown +
      d.getTraitValue .yellow + d.getTraitValue .pink + d.getTraitValue .blue +
      d.getTraitValue .purple := rfl

/-- Whenever the raw inputs do not already sum to `TOTAL_POINTS`, every
normalized trait respects the cap. -/
lemma Dna.normalize_getTraitValue_le (d : Dna) (h1 : d.total ≠ TOTAL_POINTS) (n : TraitName) :
    (Dna.normalize d).getTraitValue n ≤ MAX_TRAIT_VALUE := by
  unfold Dna.normalize
  by_cases h0 : d.total = 0
  · rw [if_pos h0]
    cases n <;> exact min_le_right _ _
  · rw [if_neg h0, if_neg h1]
    exact distribute_le_max _ _ _ (fun m => capTraits_getTraitValue_le _ m) n

/-- For non-negative raw inputs every normalized trait is at least `-(7/2)`
(it can indeed go slightly negative). -/
lemma Dna.normalize_getTraitValue_ge (d : Dna) (hnn : ∀ m, 0 ≤ d.getTraitValue m)
    (n : TraitName) : -(7/2) ≤ (Dna.normalize d).getTraitValue n := by
  unfold Dna.normalize
  by_cases h0 : d.total = 0
  · rw [if_pos h0]
    have : min (TOTAL_POINTS / 7) MAX_TRAIT_VALUE = TOTAL_POINTS / 7 := by
      rw [min_eq_left]; norm_num [TOTAL_POINTS, MAX_TRAIT_VALUE]
    cases n <;> simp only [this, Dna.getTraitValue] <;> norm_num [TOTAL_POINTS]
  · rw [if_neg h0]
    by_cases h1 : d.total = TOTAL_POINTS
    · rw [if_pos h1]
      have := hnn n
      linarith
    · rw [if_neg h1]
      show -(7/2) ≤ ((distribute ((sortAsc (capTraits (roundScaled d)).traitPairs).map Prod.fst)
        (TOTAL_POINTS - (capTraits (roundScaled d)).total) (capTraits (roundScaled d))).1
        ).getTraitValue n
      have htotpos : 0 < d.total := by
        rcases lt_or_eq_of_le (by
          have := hnn TraitName.green
          have := hnn TraitName.red
          have := hnn TraitName.brown
          have := hnn TraitName.yellow
          have := hnn TraitName.pink
          have := hnn TraitName.blue
          have := hnn TraitName.purple
          rw [Dna.total_eq_sum_traits]
          linarith : (0:ℚ) ≤ d.total) with h | h
        · exact h
        · exact absurd h.symm h0
      have hscale : 0 < TOTAL_POINTS / d.total := by
        apply div_pos _ htotpos
        norm_num [TOTAL_POINTS]
      have hcnn : ∀ m, 0 ≤ (capTraits (roundScaled d)).getTraitValue m := by
        intro m
        rw [capRound_get]
        have hj : 0 ≤ jround (d.getTraitValue m * (TOTAL_POINTS / d.total)) :=
          jround_nonneg (mul_nonneg (hnn m) (le_of_lt hscale))
        exact le_min hj (by norm_num [MAX_TRAIT_VALUE])
      have hcap : ∀ m, (capTraits (roundScaled d)).getTraitValue m ≤ MAX_TRAIT_VALUE :=
        fun m => capTraits_getTraitValue_le _ m
      have hct : (capTraits (roundScaled d)).total ≤ TOTAL_POINTS + 7/2 :=
        capTraits_total_le d h0
      rcases le_or_lt 0 (TOTAL_POINTS - (capTraits (roundScaled d)).total) with hd | hd
      · have := distribute_mono_of_nonneg
          ((sortAsc (capTraits (roundScaled d)).traitPairs).map Prod.fst)
          (TOTAL_POINTS - (capTraits (roundScaled d)).total) (capTraits (roundScaled d))
          hd hcap n
        have := hcnn n
        linarith
      · have := distribute_ge_of_nonpos
          ((sortAsc (capTraits (roundScaled d)).traitPairs).map Prod.fst)
          (TOTAL_POINTS - (capTraits (roundScaled d)).total) (capTraits (roundScaled d))
          (le_of_lt hd) hcap n
        have := hcnn n
        have h250 : TOTAL_POINTS = 250 := rfl
        linarith

/-- When the raw total is nonzero, normalization produces integer values
from integer inputs. -/
lemma Dna.normalize_int (d : Dna) (h0 : d.total ≠ 0)
    (hint : ∀ m, IsIntValue (d.getTraitValue m)) (n : TraitName) :
    IsIntValue ((Dna.normalize d).getTraitValue n) := by
  unfold Dna.normalize
  rw [if_neg h0]
  by_cases h1 : d.total = TOTAL_POINTS
  · rw [if_pos h1]; exact hint n
  · rw [if_neg h1]
    show IsIntValue (((distribute ((sortAsc (capTraits (roundScaled d)).traitPairs).map Prod.fst)
      (TOTAL_POINTS - (capTraits (roundScaled d)).total) (capTraits (roundScaled d))).1
      ).getTraitValue n)
    have hcint : ∀ m, IsIntValue ((capTraits (roundScaled d)).getTraitValue m) := by
      intro m
      rw [capRound_get]
      exact (IsIntValue.jround _).min ⟨100, rfl⟩
    have hctot : IsIntValue ((capTraits (roundScaled d)).total) := by
      rw [Dna.total_eq_sum_traits]
      exact (((((((hcint .green).add (hcint .red)).add (hcint .brown)).add
        (hcint .yellow)).add (hcint .pink)).add (hcint .blue)).add (hcint .purple))
    exact distribute_int _ _ _ (IsIntValue.sub ⟨250, rfl⟩ hctot) hcint n

/-! ### Claims C1 and C8 -/

/-- Claim C1, counterexample: the raw non-negative integer inputs
`(1, 74, 66, 17, 38, 38, 0)` produce a Trait Vector whose `purple` trait is
`-1`: the rounded scaled values overshoot `TOTAL_POINTS` by one, and the
redistribution loop subtracts the residual from the lowest-valued trait
(purple at 0), driving it negative.  This falsifies the claim that every
constructed trait value is non-negative. -/
theorem C1_counterexample :
    (mkDna 1 74 66 17 38 38 0).purple = -1 ∧ (mkDna 1 74 66 17 38 38 0).purple < 0 := by
  constructor <;>
  norm_num [mkDna, Dna.normalize, Dna.total, TOTAL_POINTS, MAX_TRAIT_VALUE, jround,
    Dna.traitPairs, allTraits, Dna.getTraitValue, sortAsc, insertAsc, distribute,
    jsign, Dna.setTraitValue, roundScaled, capTraits]

/-- Claim C1 (amended): for every 7-tuple of non-negative integer raw inputs,
the constructed Trait Vector always sums exactly to `TOTAL_POINTS`, and every
trait is at least `-(7/2)`; each trait is at most `MAX_TRAIT_VALUE` provided
the raw inputs do not already sum to `TOTAL_POINTS` (inputs summing to
`TOTAL_POINTS` are returned unchanged, even above the cap); and the traits are
integers provided the raw total is nonzero (the all-zero tuple yields
`TOTAL_POINTS / 7 = 250/7` per trait, which is not an integer). -/
theorem C1_trait_normalization (g r b y p bl pu : ℕ) :
    (mkDna g r b y p bl pu).total = TOTAL_POINTS ∧
    (∀ n, -(7/2) ≤ (mkDna g r b y p bl pu).getTraitValue n) ∧
    ((Dna.mk (g:ℚ) r b y p bl pu).total ≠ TOTAL_POINTS →
      ∀ n, (mkDna g r b y p bl pu).getTraitValue n ≤ MAX_TRAIT_VALUE) ∧
    ((Dna.mk (g:ℚ) r b y p bl pu).total ≠ 0 →
      ∀ n, IsIntValue ((mkDna g r b y p bl pu).getTraitValue n)) := by
  have hnn : ∀ m, 0 ≤ (Dna.mk (g:ℚ) r b y p bl pu).getTraitValue m := by
    intro m
    cases m <;> exact Nat.cast_nonneg _
  have hint : ∀ m, IsIntValue ((Dna.mk (g:ℚ) r b y p bl pu).getTraitValue m) := by
    intro m
    cases m
    · exact ⟨g, by push_cast; rfl⟩
    · exact ⟨r, by push_cast; rfl⟩
    · exact ⟨b, by push_cast; rfl⟩
    · exact ⟨y, by push_cast; rfl⟩
    · exact ⟨p, by push_cast; rfl⟩
    · exact ⟨bl, by push_cast; rfl⟩
    · exact ⟨pu, by push_cast; rfl⟩
  exact ⟨Dna.normalize_total _,
    fun n => Dna.normalize_getTraitValue_ge _ hnn n,
    fun h1 n => Dna.normalize_getTraitValue_le _ h1 n,
    fun h0 n => Dna.normalize_int _ h0 hint n⟩

/-- Witness for C1: at the default raw inputs `(15, 10, 15, 15, 15, 15, 15)`
(raw total 100, neither 0 nor `TOTAL_POINTS`) all four amended conclusions
apply. -/
theorem C1_trait_normalization_witness :
    (mkDna 15 10 15 15 15 15 15).total = TOTAL_POINTS ∧
    (∀ n, -(7/2) ≤ (mkDna 15 10 15 15 15 15 15).getTraitValue n) ∧
    (∀ n, (mkDna 15 10 15 15 15 15 15).getTraitValue n ≤ MAX_TRAIT_VALUE) ∧
    (∀ n, IsIntValue ((mkDna 15 10 15 15 15 15 15).getTraitValue n)) := by
  obtain ⟨h1, h2, h3, h4⟩ := C1_trait_normalization 15 10 15 15 15 15 15
  have hne : (Dna.mk ((15:ℕ):ℚ) ((10:ℕ):ℚ) ((15:ℕ):ℚ) ((15:ℕ):ℚ) ((15:ℕ):ℚ)
      ((15:ℕ):ℚ) ((15:ℕ):ℚ)).total = 100 := by
    norm_num [Dna.total]
  refine ⟨by exact_mod_cast h1, fun n => by exact_mod_cast h2 n, fun n => ?_, fun n => ?_⟩
  · have := h3 (by rw [hne]; norm_num [TOTAL_POINTS]) n
    exact_mod_cast this
  · have := h4 (by rw [hne]; norm_num) n
    exact_mod_cast this

/-- Claim C8: for every Trait Vector, every mutation strength in `[0, 1]`,
and every outcome of the random choices (1-3 point transfers, distinct
source/target, random draw in `[0, 1)`), the mutated copy has trait values
summing exactly to `TOTAL_POINTS`: the point transfers preserve the running
sum, and the result is rebuilt through the normalizing constructor. -/
theorem C8_mutation_conservation (d : Dna) (s : ℚ) (hs0 : 0 ≤ s) (hs1 : s ≤ 1)
    (choices : List MutChoice) (hlen : 1 ≤ choices.length ∧ choices.length ≤ 3)
    (hwf : ∀ c ∈ choices, c.toIdx ≠ c.fromIdx ∧ 0 ≤ c.r ∧ c.r < 1) :
    (d.mutate s choices).total = TOTAL_POINTS := by
  unfold Dna.mutate mkDna
  exact Dna.normalize_total _

/-- Witness for C8: a single transfer of strength `0.15` from trait 0 to
trait 1 with random draw `1/2`, applied to the default Trait Vector. -/
theorem C8_mutation_conservation_witness :
    ((mkDna 15 10 15 15 15 15 15).mutate (3/20) [⟨0, 1, 1/2⟩]).total = TOTAL_POINTS :=
  C8_mutation_conservation (mkDna 15 10 15 15 15 15 15) (3/20) (by norm_num) (by norm_num)
    [⟨0, 1, 1/2⟩] (by simp) (by
      intro c hc
      simp only [List.mem_singleton] at hc
      subst hc
      refine ⟨by decide, by norm_num, by norm_num⟩)


lemma IsIntValue.floor_cast_eq {q : ℚ} (h : IsIntValue q) : ((⌊q⌋ : ℤ) : ℚ) = q := by
  obtain ⟨z, rfl⟩ := h
  rw [Int.floor_intCast]

lemma EnergyWallet.get_setRaw_self (w : EnergyWallet) (t : EnergyType) (v : ℚ) :
    (w.setRaw t v).get t = v := by
  cases t <;> rfl

lemma EnergyWallet.get_setRaw_ne (w : EnergyWallet) {k t : EnergyType} (v : ℚ) (h : k ≠ t) :
    (w.setRaw t v).get k = w.get k := by
  cases k <;> cases t <;> first | rfl | exact absurd rfl h

lemma EnergyWallet.totalUnits_setRaw (w : EnergyWallet) (t : EnergyType) (v : ℚ) :
    (w.setRaw t v).totalUnits = w.totalUnits - w.get t + v := by
  cases t <;> simp [EnergyWallet.setRaw, EnergyWallet.totalUnits, EnergyWallet.get] <;> ring

lemma walletRemove_snd (w : EnergyWallet) (t : EnergyType) (a : ℚ) :
    (walletRemove w t a).2 = min ((⌊a⌋ : ℤ) : ℚ) (w.get t) := rfl

lemma walletRemove_fst (w : EnergyWallet) (t : EnergyType) (a : ℚ) :
    (walletRemove w t a).1 = w.setRaw t (w.get t - (walletRemove w t a).2) := rfl

lemma walletAdd_none_snd (w : EnergyWallet) (t : EnergyType) (a : ℚ) :
    (walletAdd w t a none).2 = ((⌊a⌋ : ℤ) : ℚ) := rfl

lemma walletAdd_none_fst (w : EnergyWallet) (t : EnergyType) (a : ℚ) :
    (walletAdd w t a none).1 = w.setRaw t (w.get t + ((⌊a⌋ : ℤ) : ℚ)) := rfl

lemma walletAdd_some_snd (w : EnergyWallet) (t : EnergyType) (a cap : ℚ) :
    (walletAdd w t a (some cap)).2 = min ((⌊a⌋ : ℤ) : ℚ) (cap - w.totalUnits) := rfl

lemma walletAdd_some_fst (w : EnergyWallet) (t : EnergyType) (a cap : ℚ) :
    (walletAdd w t a (some cap)).1 =
      w.setRaw t (w.get t + (walletAdd w t a (some cap)).2) := rfl

/-- Claim C4, counterexample: with a fractional destination capacity `9/2`,
transferring 5 Nutrition units out of a source holding 5 adds only `9/2` to
the destination and refunds `⌊1/2⌋ = 0` to the source: half a unit of
energy is destroyed, so the source+destination total is NOT left unchanged. -/
theorem C4_counterexample :
    (walletTransfer ⟨0, 0, 5⟩ ⟨0, 0, 0⟩ .NUTRITION_UNIT 5 (some (9/2))).1.totalUnits +
      (walletTransfer ⟨0, 0, 5⟩ ⟨0, 0, 0⟩ .NUTRITION_UNIT 5 (some (9/2))).2.1.totalUnits
      = 9/2 ∧
    (EnergyWallet.totalUnits ⟨0, 0, 5⟩ + EnergyWallet.totalUnits ⟨0, 0, 0⟩ = 5) ∧
    (9/2 : ℚ) ≠ 5 := by
  refine ⟨?_, by norm_num [EnergyWallet.totalUnits], by norm_num⟩
  norm_num [walletTransfer, walletRemove, walletAdd, EnergyWallet.get,
    EnergyWallet.setRaw, EnergyWallet.totalUnits]



lemma walletTransfer_eq (w1 w2 : EnergyWallet) (t : EnergyType) (amount : ℚ)
    (cap : Option ℚ) :
    walletTransfer w1 w2 t amount cap =
      if (walletAdd w2 t (walletRemove w1 t amount).2 cap).2 < (walletRemove w1 t amount).2
      then ((walletAdd (walletRemove w1 t amount).1 t
              ((walletRemove w1 t amount).2 -
                (walletAdd w2 t (walletRemove w1 t amount).2 cap).2) none).1,
            (walletAdd w2 t (walletRemove w1 t amount).2 cap).1,
            (walletAdd w2 t (walletRemove w1 t amount).2 cap).2)
      else ((walletRemove w1 t amount).1,
            (walletAdd w2 t (walletRemove w1 t amount).2 cap).1,
            (walletAdd w2 t (walletRemove w1 t amount).2 cap).2) := rfl

/-- Claim C4 (amended): `transfer` conserves the combined source+destination
total and keeps all counts non-negative only under the conditions the program
maintains for real wallets: all stored counts are integers and the capacity
(when supplied) is an integer — under these, conservation holds for every
requested amount; non-negativity of every kind additionally needs a
non-negative amount, non-negative initial counts, and a capacity at least the
destination's current total. -/
theorem C4_transfer_conservation (w1 w2 : EnergyWallet) (t : EnergyType) (amount : ℚ)
    (cap : Option ℚ)
    (hw1 : ∀ k, IsIntValue (w1.get k)) (hw2 : ∀ k, IsIntValue (w2.get k))
    (hcap : ∀ c ∈ cap, IsIntValue c) :
    ((walletTransfer w1 w2 t amount cap).1.totalUnits +
        (walletTransfer w1 w2 t amount cap).2.1.totalUnits
      = w1.totalUnits + w2.totalUnits) ∧
    (0 ≤ amount → (∀ k, 0 ≤ w1.get k) → (∀ k, 0 ≤ w2.get k) →
      (∀ c ∈ cap, w2.totalUnits ≤ c) →
      (∀ k, 0 ≤ (walletTransfer w1 w2 t amount cap).1.get k) ∧
      (∀ k, 0 ≤ (walletTransfer w1 w2 t amount cap).2.1.get k)) := by
  have hw2tot : IsIntValue w2.totalUnits := by
    have h : w2.totalUnits = w2.get .SUN_UNIT + w2.get .SOIL_UNIT + w2.get .NUTRITION_UNIT := rfl
    rw [h]
    exact ((hw2 .SUN_UNIT).add (hw2 .SOIL_UNIT)).add (hw2 .NUTRITION_UNIT)
  have hrm_int : IsIntValue (walletRemove w1 t amount).2 := by
    rw [walletRemove_snd]
    exact IsIntValue.min ⟨⌊amount⌋, rfl⟩ (hw1 t)
  have hrm_le : (walletRemove w1 t amount).2 ≤ w1.get t := by
    rw [walletRemove_snd]; exact min_le_right _ _
  have hfloor_rm : ((⌊(walletRemove w1 t amount).2⌋ : ℤ) : ℚ) = (walletRemove w1 t amount).2 :=
    hrm_int.floor_cast_eq
  have hadd_int : IsIntValue (walletAdd w2 t (walletRemove w1 t amount).2 cap).2 := by
    cases cap with
    | none => rw [walletAdd_none_snd, hfloor_rm]; exact hrm_int
    | some c =>
      rw [walletAdd_some_snd, hfloor_rm]
      exact IsIntValue.min hrm_int (IsIntValue.sub (hcap c rfl) hw2tot)
  have hadd_le : (walletAdd w2 t (walletRemove w1 t amount).2 cap).2 ≤
      (walletRemove w1 t amount).2 := by
    cases cap with
    | none => rw [walletAdd_none_snd, hfloor_rm]
    | some c => rw [walletAdd_some_snd, hfloor_rm]; exact min_le_left _ _
  have hto_fst : (walletAdd w2 t (walletRemove w1 t amount).2 cap).1 =
      w2.setRaw t (w2.get t + (walletAdd w2 t (walletRemove w1 t amount).2 cap).2) := by
    cases cap with
    | none => rw [walletAdd_none_fst, walletAdd_none_snd]
    | some c => rw [walletAdd_some_fst]
  have hto_total : (walletAdd w2 t (walletRemove w1 t amount).2 cap).1.totalUnits =
      w2.totalUnits + (walletAdd w2 t (walletRemove w1 t amount).2 cap).2 := by
    rw [hto_fst, EnergyWallet.totalUnits_setRaw]; ring
  have hfrom_total : (walletRemove w1 t amount).1.totalUnits =
      w1.totalUnits - (walletRemove w1 t amount).2 := by
    rw [walletRemove_fst, EnergyWallet.totalUnits_setRaw]; ring
  have hfloor_diff : ((⌊(walletRemove w1 t amount).2 -
      (walletAdd w2 t (walletRemove w1 t amount).2 cap).2⌋ : ℤ) : ℚ) =
      (walletRemove w1 t amount).2 - (walletAdd w2 t (walletRemove w1 t amount).2 cap).2 :=
    (hrm_int.sub hadd_int).floor_cast_eq
  rw [walletTransfer_eq]
  by_cases hlt : (walletAdd w2 t (walletRemove w1 t amount).2 cap).2 <
      (walletRemove w1 t amount).2
  · rw [if_pos hlt]
    constructor
    · show ((walletAdd (walletRemove w1 t amount).1 t _ none).1).totalUnits + _ = _
      rw [walletAdd_none_fst, EnergyWallet.totalUnits_setRaw, hfloor_diff, hto_total,
        hfrom_total]
      ring
    · intro hamt hn1 hn2 hcb
      have hrm_nonneg : 0 ≤ (walletRemove w1 t amount).2 := by
        rw [walletRemove_snd]
        apply le_min _ (hn1 t)
        have h0 : (0:ℤ) ≤ ⌊amount⌋ := Int.floor_nonneg.mpr hamt
        exact_mod_cast h0
      have hadd_nonneg : 0 ≤ (walletAdd w2 t (walletRemove w1 t amount).2 cap).2 := by
        cases cap with
        | none => rw [walletAdd_none_snd, hfloor_rm]; exact hrm_nonneg
        | some c =>
          rw [walletAdd_some_snd, hfloor_rm]
          exact le_min hrm_nonneg (by have := hcb c rfl; linarith)
      constructor
      · intro k
        show 0 ≤ ((walletAdd (walletRemove w1 t amount).1 t _ none).1).get k
        rw [walletAdd_none_fst, hfloor_diff]
        by_cases hk : k = t
        · subst hk
          rw [EnergyWallet.get_setRaw_self, walletRemove_fst, EnergyWallet.get_setRaw_self]
          linarith
        · rw [EnergyWallet.get_setRaw_ne _ _ hk, walletRemove_fst,
            EnergyWallet.get_setRaw_ne _ _ hk]
          exact hn1 k
      · intro k
        show 0 ≤ ((walletAdd w2 t (walletRemove w1 t amount).2 cap).1).get k
        rw [hto_fst]
        by_cases hk : k = t
        · subst hk
          rw [EnergyWallet.get_setRaw_self]
          have := hn2 k
          linarith
        · rw [EnergyWallet.get_setRaw_ne _ _ hk]
          exact hn2 k
  · rw [if_neg hlt]
    have heq : (walletAdd w2 t (walletRemove w1 t amount).2 cap).2 =
        (walletRemove w1 t amount).2 := le_antisymm hadd_le (not_lt.mp hlt)
    constructor
    · show ((walletRemove w1 t amount).1).totalUnits + _ = _
      rw [hfrom_total, hto_total, heq]
      ring
    · intro hamt hn1 hn2 hcb
      have hrm_nonneg : 0 ≤ (walletRemove w1 t amount).2 := by
        rw [walletRemove_snd]
        apply le_min _ (hn1 t)
        have h0 : (0:ℤ) ≤ ⌊amount⌋ := Int.floor_nonneg.mpr hamt
        exact_mod_cast h0
      constructor
      · intro k
        show 0 ≤ ((walletRemove w1 t amount).1).get k
        rw [walletRemove_fst]
        by_cases hk : k = t
        · subst hk
          rw [EnergyWallet.get_setRaw_self]
          linarith
        · rw [EnergyWallet.get_setRaw_ne _ _ hk]
          exact hn1 k
      · intro k
        show 0 ≤ ((walletAdd w2 t (walletRemove w1 t amount).2 cap).1).get k
        rw [hto_fst]
        by_cases hk : k = t
        · subst hk
          rw [EnergyWallet.get_setRaw_self]
          have := hn2 k
          linarith
        · rw [EnergyWallet.get_setRaw_ne _ _ hk]
          exact hn2 k

/-- Witness for C4: transferring 7 Nutrition units between two integer
wallets under integer capacity 10 conserves the combined total and keeps
every count non-negative. -/
theorem C4_transfer_conservation_witness :
    ((walletTransfer ⟨1, 2, 8⟩ ⟨0, 3, 1⟩ .NUTRITION_UNIT 7 (some 10)).1.totalUnits +
        (walletTransfer ⟨1, 2, 8⟩ ⟨0, 3, 1⟩ .NUTRITION_UNIT 7 (some 10)).2.1.totalUnits
      = EnergyWallet.totalUnits ⟨1, 2, 8⟩ + EnergyWallet.totalUnits ⟨0, 3, 1⟩) ∧
    ((∀ k, 0 ≤ (walletTransfer ⟨1, 2, 8⟩ ⟨0, 3, 1⟩ .NUTRITION_UNIT 7 (some 10)).1.get k) ∧
      (∀ k, 0 ≤ (walletTransfer ⟨1, 2, 8⟩ ⟨0, 3, 1⟩ .NUTRITION_UNIT 7 (some 10)).2.1.get k)) := by
  have h := C4_transfer_conservation ⟨1, 2, 8⟩ ⟨0, 3, 1⟩ .NUTRITION_UNIT 7 (some 10)
    (fun k => by cases k <;> exact ⟨_, rfl⟩)
    (fun k => by cases k <;> exact ⟨_, rfl⟩)
    (fun c hc => by
      simp only [Option.mem_def, Option.some_inj] at hc
      exact hc ▸ ⟨10, rfl⟩)
  refine ⟨h.1, h.2 (by norm_num) ?_ ?_ ?_⟩
  · intro k; cases k <;> norm_num [EnergyWallet.get]
  · intro k; cases k <;> norm_num [EnergyWallet.get]
  · intro c hc
    simp only [Option.mem_def, Option.some_inj] at hc
    subst hc
    norm_num [EnergyWallet.totalUnits]



/-- Claim C7: the energy-conversion step strictly prefers Sun.  Whenever the
cell holds any Sun, the Soil count is untouched (unconditionally), all Sun is
converted 1:1 to Nutrition (given the wallet invariants: integer counts and
total within capacity); only when no Sun is held is all Soil converted 1:1 to
Nutrition. -/
theorem C7_conversion_preference (w : EnergyWallet) (cap : ℚ)
    (hsun : IsIntValue w.sun) (hsoil : IsIntValue w.soil)
    (htot : w.totalUnits ≤ cap) :
    (0 < w.sun → (applyEnergyConversion w cap).soil = w.soil) ∧
    (0 < w.sun → applyEnergyConversion w cap = ⟨0, w.soil, w.nutrition + w.sun⟩) ∧
    (w.sun = 0 → 0 < w.soil → applyEnergyConversion w cap = ⟨w.sun, 0, w.nutrition + w.soil⟩) := by
  have hget_sun : w.get .SUN_UNIT = w.sun := rfl
  have hget_soil : w.get .SOIL_UNIT = w.soil := rfl
  have hfull : ∀ h1 : 0 < w.sun, applyEnergyConversion w cap = ⟨0, w.soil, w.nutrition + w.sun⟩ := by
    intro h1
    unfold applyEnergyConversion
    rw [hget_sun, if_pos h1]
    have hrm : walletRemove w .SUN_UNIT w.sun =
        (⟨w.sun - w.sun, w.soil, w.nutrition⟩, w.sun) := by
      unfold walletRemove
      simp only [hget_sun, hsun.floor_cast_eq, min_self]
      rfl
    rw [hrm]
    have hrm1 : (⟨w.sun - w.sun, w.soil, w.nutrition⟩ : EnergyWallet) =
        ⟨0, w.soil, w.nutrition⟩ := by
      congr 1
      ring
    rw [hrm1]
    unfold walletAdd
    simp only
    rw [hsun.floor_cast_eq]
    have havail : w.sun ≤ cap - EnergyWallet.totalUnits ⟨0, w.soil, w.nutrition⟩ := by
      have h2 : EnergyWallet.totalUnits ⟨0, w.soil, w.nutrition⟩ =
          w.totalUnits - w.sun := by
        unfold EnergyWallet.totalUnits
        simp only
        ring
      rw [h2]
      linarith
    rw [min_eq_left havail]
    rfl
  refine ⟨fun h1 => by rw [hfull h1], hfull, fun h0 h1 => ?_⟩
  unfold applyEnergyConversion
  rw [hget_sun, hget_soil, if_neg (by rw [h0]; exact lt_irrefl 0), if_pos h1]
  have hrm : walletRemove w .SOIL_UNIT w.soil =
      (⟨w.sun, w.soil - w.soil, w.nutrition⟩, w.soil) := by
    unfold walletRemove
    simp only [hget_soil, hsoil.floor_cast_eq, min_self]
    rfl
  rw [hrm]
  have hrm1 : (⟨w.sun, w.soil - w.soil, w.nutrition⟩ : EnergyWallet) =
      ⟨w.sun, 0, w.nutrition⟩ := by
    congr 1
    ring
  rw [hrm1]
  unfold walletAdd
  simp only
  rw [hsoil.floor_cast_eq]
  have havail : w.soil ≤ cap - EnergyWallet.totalUnits ⟨w.sun, 0, w.nutrition⟩ := by
    have h2 : EnergyWallet.totalUnits ⟨w.sun, 0, w.nutrition⟩ = w.totalUnits - w.soil := by
      unfold EnergyWallet.totalUnits
      simp only
      ring
    rw [h2]
    linarith
  rw [min_eq_left havail]
  rfl

/-- Witness for C7: a wallet holding 3 Sun, 4 Soil and 5 Nutrition under
capacity 100 converts exactly its Sun and leaves Soil untouched. -/
theorem C7_conversion_preference_witness :
    (applyEnergyConversion ⟨3, 4, 5⟩ 100).soil = 4 ∧
    applyEnergyConversion ⟨3, 4, 5⟩ 100 = ⟨0, 4, 8⟩ := by
  have h := C7_conversion_preference ⟨3, 4, 5⟩ 100 ⟨3, rfl⟩ ⟨4, rfl⟩
    (by norm_num [EnergyWallet.totalUnits])
  obtain ⟨h1, h2, _⟩ := h
  refine ⟨h1 (by norm_num), ?_⟩
  have h3 := h2 (by norm_num)
  rw [h3]
  norm_num



/-- Claim C2, counterexample: with base cost 400 and blue = 100 the growth
pass gates expansion on `total ≥ 400 × (1 − 100/100 × 1.0) × 1.2 = 0`, so a
cell holding only 50 Nutrition attempts expansion; but the claimed threshold
`1.2 × (400 × (1 − 100/100 × 0.8)) = 96` is NOT met.  The gate in `update`
uses multiplier `1 − blue/100 × 1.0` on total energy, not the attempt's
`1 − blue/100 × 0.8` on Nutrition. -/
theorem C2_counterexample :
    expansionGate 400 100 50 ∧ ¬ specExpansionCost 400 100 * (6/5) ≤ 50 := by
  constructor
  · unfold expansionGate
    norm_num
  · unfold specExpansionCost
    norm_num

/-- Claim C2 (amended): expansion is attempted exactly when the cell's TOTAL
energy (all kinds) is at least `1.2 × base × (1 − blue/100)` (the gate
multiplier scales the reduction all the way to 100%, not 80%); the attempt
itself succeeds exactly when the cell's Nutrition covers the floored cost
`⌊base × (1 − blue/100 × 0.8)⌋` and an empty cardinal neighbor exists; on
success that floored cost is debited from Nutrition and the spawned cell's
wallet holds `min(⌊cost × 0.5⌋, capacity)` Nutrition. -/
theorem C2_expansion_behavior (base blue totalE nutrition : ℚ) (k : ℕ) (cap : ℚ) :
    (expansionGate base blue totalE ↔ base * (1 - blue / 100) * (6/5) ≤ totalE) ∧
    ((attemptExpansion base blue nutrition k cap).succeeded = true ↔
      (actualExpansionCost base blue ≤ nutrition ∧ k ≠ 0)) ∧
    ((attemptExpansion base blue nutrition k cap).succeeded = true →
      (attemptExpansion base blue nutrition k cap).nutritionAfter =
        nutrition - actualExpansionCost base blue ∧
      (attemptExpansion base blue nutrition k cap).spawnedWallet =
        some ⟨0, 0, min ((⌊actualExpansionCost base blue * (1/2)⌋ : ℤ) : ℚ) cap⟩) := by
  refine ⟨?_, ?_, ?_⟩
  · unfold expansionGate
    have h : base * (1 - blue / 100 * 1) * (6/5) = base * (1 - blue / 100) * (6/5) := by
      ring
    rw [h]
  all_goals {
    have hquad : attemptExpansion base blue nutrition k cap =
        if nutrition < actualExpansionCost base blue then ⟨false, nutrition, none⟩
        else if k = 0 then ⟨false, nutrition, none⟩
        else ⟨true, nutrition - actualExpansionCost base blue,
          some (mkCellWallet ((⌊actualExpansionCost base blue * (1/2)⌋ : ℤ) : ℚ) cap)⟩ := rfl
    rw [hquad]
    by_cases h1 : nutrition < actualExpansionCost base blue
    · rw [if_pos h1]
      simp only [Bool.false_eq_true, false_iff, false_implies, not_and]
      try exact fun hc => absurd hc (not_le.mpr h1)
    · rw [if_neg h1]
      by_cases h2 : k = 0
      · rw [if_pos h2]
        simp only [Bool.false_eq_true, false_iff, false_implies, not_and]
        try exact fun _ hk => hk h2
      · rw [if_neg h2]
        simp only [true_iff, true_implies]
        try exact ⟨not_lt.mp h1, h2⟩
        try {
          refine ⟨trivial, ?_⟩
          simp only [mkCellWallet, Int.floor_intCast]
        }
  }

/-- Witness for C2: base 400, blue 0, a cell with total energy 500 and
Nutrition 500, one empty neighbor, capacity 300: the gate passes, the
attempt succeeds, 400 is debited and the spawned cell starts with 200
Nutrition. -/
theorem C2_expansion_behavior_witness :
    expansionGate 400 0 500 ∧
    (attemptExpansion 400 0 500 1 300).succeeded = true ∧
    (attemptExpansion 400 0 500 1 300).nutritionAfter = 100 ∧
    (attemptExpansion 400 0 500 1 300).spawnedWallet = some ⟨0, 0, 200⟩ := by
  obtain ⟨h1, h2, h3⟩ := C2_expansion_behavior 400 0 500 500 1 300
  have hgate : expansionGate 400 0 500 := h1.mpr (by norm_num)
  have hcost : actualExpansionCost 400 0 = 400 := by
    unfold actualExpansionCost
    norm_num
  have hsucc : (attemptExpansion 400 0 500 1 300).succeeded = true :=
    h2.mpr ⟨by rw [hcost]; norm_num, by norm_num⟩
  obtain ⟨hafter, hspawn⟩ := h3 hsucc
  refine ⟨hgate, hsucc, ?_, ?_⟩
  · rw [hafter, hcost]
    norm_num
  · rw [hspawn, hcost]
    norm_num

/-- Claim C3: the failing input evaluated in the model.  A spore whose target
tile exists and is occupied, with remaining lifetime still positive after the
`dt` decrement, is KEPT for the next tick by `updateSpores` — the code's own
trailing comment ("else: spore dies (expired or occupied tile)") and the
specification say it should be discarded. -/
theorem C3_spore_occupied_kept :
    sporeStep 10 1 true true = SporeOutcome.kept ∧
    sporeStep 10 1 true true ≠ SporeOutcome.dropped ∧
    (∀ lifetime dt : ℚ, ∀ te oc : Bool, sporeStep lifetime dt te oc = SporeOutcome.kept →
      0 < lifetime - dt) := by
  refine ⟨?_, ?_, ?_⟩
  · unfold sporeStep
    norm_num
  · have h : sporeStep 10 1 true true = SporeOutcome.kept := by
      unfold sporeStep
      norm_num
    rw [h]
    exact fun hcontra => SporeOutcome.noConfusion hcontra
  · intro lifetime dt te oc h
    unfold sporeStep at h
    split_ifs at h with h1 h2
    · exact h2



lemma parasitizeVictim_eq_of_pos (c acc : ℚ) (w : EnergyWallet) (cap v : ℚ)
    (hpos : 0 < ((⌊acc + c⌋ : ℤ) : ℚ)) (hv : ((⌊acc + c⌋ : ℤ) : ℚ) ≤ v)
    (hroom : ((⌊acc + c⌋ : ℤ) : ℚ) ≤ cap - w.totalUnits) :
    parasitizeVictim c acc w cap v =
      (acc + c - ((⌊acc + c⌋ : ℤ) : ℚ),
        w.setRaw .NUTRITION_UNIT (w.nutrition + ((⌊acc + c⌋ : ℤ) : ℚ)),
        v - ((⌊acc + c⌋ : ℤ) : ℚ)) := by
  unfold parasitizeVictim
  simp only [Int.floor_intCast, min_eq_left hv]
  rw [if_pos hpos, if_pos hpos]
  have hadd : (walletAdd w .NUTRITION_UNIT ((⌊acc + c⌋ : ℤ) : ℚ) (some cap)).1 =
      w.setRaw .NUTRITION_UNIT (w.nutrition + ((⌊acc + c⌋ : ℤ) : ℚ)) := by
    rw [walletAdd_some_fst, walletAdd_some_snd, Int.floor_intCast, min_eq_left hroom]
    rfl
  rw [hadd]

lemma parasitizeVictim_eq_of_zero (c acc : ℚ) (w : EnergyWallet) (cap v : ℚ)
    (hz : ((⌊acc + c⌋ : ℤ) : ℚ) = 0) :
    parasitizeVictim c acc w cap v = (acc + c, w, v) := by
  unfold parasitizeVictim
  simp only [hz, sub_zero, lt_irrefl, if_false]

lemma parasitismFold_spec (c cap : ℚ) (hc : 0 ≤ c) :
    ∀ (vs : List ℚ) (acc : ℚ) (w : EnergyWallet),
      0 ≤ acc → acc < 1 →
      (∀ v ∈ vs, c + 1 ≤ v) →
      w.totalUnits + (acc + vs.length * c) ≤ cap →
      0 ≤ (parasitismFold c cap vs acc w).1 ∧
      (parasitismFold c cap vs acc w).1 < 1 ∧
      (parasitismFold c cap vs acc w).2.1.sun = w.sun ∧
      (parasitismFold c cap vs acc w).2.1.soil = w.soil ∧
      (parasitismFold c cap vs acc w).2.1.nutrition =
        w.nutrition + (acc + vs.length * c - (parasitismFold c cap vs acc w).1) ∧
      vs.sum - (parasitismFold c cap vs acc w).2.2.sum =
        acc + vs.length * c - (parasitismFold c cap vs acc w).1
  | [], acc, w, ha0, ha1, hvs, hcap => by
    refine ⟨ha0, ha1, rfl, rfl, ?_, ?_⟩ <;> simp [parasitismFold]
  | v :: vs, acc, w, ha0, ha1, hvs, hcap => by
    have hacc1_nonneg : 0 ≤ acc + c := by linarith
    have hfl_nonneg : (0:ℚ) ≤ ((⌊acc + c⌋ : ℤ) : ℚ) := by
      have h0 : (0:ℤ) ≤ ⌊acc + c⌋ := Int.floor_nonneg.mpr hacc1_nonneg
      exact_mod_cast h0
    have hfl_le : ((⌊acc + c⌋ : ℤ) : ℚ) ≤ acc + c := Int.floor_le _
    have hfr_nonneg : 0 ≤ acc + c - ((⌊acc + c⌋ : ℤ) : ℚ) := by linarith
    have hfr_lt : acc + c - ((⌊acc + c⌋ : ℤ) : ℚ) < 1 := by
      have h1 : acc + c < ⌊acc + c⌋ + 1 := Int.lt_floor_add_one _
      push_cast at h1
      linarith
    have hlen : ((v :: vs).length : ℚ) * c = c + (vs.length : ℚ) * c := by
      push_cast [List.length_cons]
      ring
    have hvtail : ∀ u ∈ vs, c + 1 ≤ u := fun u hu => hvs u (List.mem_cons_of_mem _ hu)
    rcases lt_or_eq_of_le hfl_nonneg with hpos | hzero
    · -- at least one whole unit extracted for this victim
      have hvbound : ((⌊acc + c⌋ : ℤ) : ℚ) ≤ v := by
        have hv1 := hvs v (List.mem_cons_self _ _)
        have h1 : acc + c < 1 + c := by linarith
        linarith
      have hroom : ((⌊acc + c⌋ : ℤ) : ℚ) ≤ cap - w.totalUnits := by
        rw [hlen] at hcap
        have hlc : 0 ≤ (vs.length : ℚ) * c := mul_nonneg (by positivity) hc
        linarith
      have hstep := parasitizeVictim_eq_of_pos c acc w cap v hpos hvbound hroom
      have hrec := parasitismFold_spec c cap hc vs (acc + c - ((⌊acc + c⌋ : ℤ) : ℚ))
        (w.setRaw .NUTRITION_UNIT (w.nutrition + ((⌊acc + c⌋ : ℤ) : ℚ)))
        hfr_nonneg hfr_lt hvtail (by
          rw [EnergyWallet.totalUnits_setRaw]
          have hget : w.get .NUTRITION_UNIT = w.nutrition := rfl
          rw [hget]
          have hcap2 : w.totalUnits + (acc + (c + (vs.length : ℚ) * c)) ≤ cap := by
            rw [← hlen]
            exact hcap
          linarith)
      obtain ⟨r1, r2, r3, r4, r5, r6⟩ := hrec
      have hunfold : parasitismFold c cap (v :: vs) acc w =
          ((parasitismFold c cap vs (acc + c - ((⌊acc + c⌋ : ℤ) : ℚ))
              (w.setRaw .NUTRITION_UNIT (w.nutrition + ((⌊acc + c⌋ : ℤ) : ℚ)))).1,
            (parasitismFold c cap vs (acc + c - ((⌊acc + c⌋ : ℤ) : ℚ))
              (w.setRaw .NUTRITION_UNIT (w.nutrition + ((⌊acc + c⌋ : ℤ) : ℚ)))).2.1,
            (v - ((⌊acc + c⌋ : ℤ) : ℚ)) ::
              (parasitismFold c cap vs (acc + c - ((⌊acc + c⌋ : ℤ) : ℚ))
                (w.setRaw .NUTRITION_UNIT (w.nutrition + ((⌊acc + c⌋ : ℤ) : ℚ)))).2.2) := by
        show (let step := parasitizeVictim c acc w cap v
              let rest := parasitismFold c cap vs step.1 step.2.1
              (rest.1, rest.2.1, step.2.2 :: rest.2.2)) = _
        rw [hstep]
      rw [hunfold]
      have hsun : (w.setRaw .NUTRITION_UNIT (w.nutrition + ((⌊acc + c⌋ : ℤ) : ℚ))).sun
          = w.sun := rfl
      have hsoil : (w.setRaw .NUTRITION_UNIT (w.nutrition + ((⌊acc + c⌋ : ℤ) : ℚ))).soil
          = w.soil := rfl
      have hnut : (w.setRaw .NUTRITION_UNIT (w.nutrition + ((⌊acc + c⌋ : ℤ) : ℚ))).nutrition
          = w.nutrition + ((⌊acc + c⌋ : ℤ) : ℚ) := rfl
      refine ⟨r1, r2, by rw [r3, hsun], by rw [r4, hsoil], ?_, ?_⟩
      · rw [r5, hnut, hlen]
        ring
      · rw [List.sum_cons, List.sum_cons]
        rw [hlen]
        have := r6
        linarith
    · -- no whole unit extracted: the accumulator keeps the fraction
      have hstep := parasitizeVictim_eq_of_zero c acc w cap v hzero.symm
      have hfr1 : acc + c < 1 := by
        have h1 : acc + c < ⌊acc + c⌋ + 1 := Int.lt_floor_add_one _
        have h2 : ((⌊acc + c⌋ : ℤ) : ℚ) = 0 := hzero.symm
        push_cast at h1
        rw [h2] at h1
        linarith
      have hrec := parasitismFold_spec c cap hc vs (acc + c) w hacc1_nonneg hfr1 hvtail (by
        rw [hlen] at hcap
        linarith)
      obtain ⟨r1, r2, r3, r4, r5, r6⟩ := hrec
      have hunfold : parasitismFold c cap (v :: vs) acc w =
          ((parasitismFold c cap vs (acc + c) w).1,
            (parasitismFold c cap vs (acc + c) w).2.1,
            v :: (parasitismFold c cap vs (acc + c) w).2.2) := by
        show (let step := parasitizeVictim c acc w cap v
              let rest := parasitismFold c cap vs step.1 step.2.1
              (rest.1, rest.2.1, step.2.2 :: rest.2.2)) = _
        rw [hstep]
      rw [hunfold]
      refine ⟨r1, r2, r3, r4, ?_, ?_⟩
      · rw [r5, hlen]
        ring
      · rw [List.sum_cons, List.sum_cons, hlen]
        linarith



/-- Claim C6, counterexample: a 100%-red parasite that is already at its
energy capacity (wallet 300/300) drains 10 Nutrition units from its single
enemy neighbor in one 1-second tick, but its own Nutrition is unchanged —
the drained units vanish at the capacity clamp instead of being "added to
the parasite's Nutrition" as the claim states. -/
theorem C6_counterexample :
    applyParasitism 1 10 1 0 ⟨0, 0, 300⟩ 300 [100] = (0, ⟨0, 0, 300⟩, [90]) ∧
    (applyParasitism 1 10 1 0 ⟨0, 0, 300⟩ 300 [100]).2.1.nutrition = 300 ∧
    (100 : ℚ) - 90 = 10 := by
  refine ⟨?_, ?_, by norm_num⟩ <;>
  norm_num [applyParasitism, parasitismFold, parasitizeVictim, walletAdd,
    EnergyWallet.get, EnergyWallet.setRaw, EnergyWallet.totalUnits]

/-- Claim C6 (amended): for a cell with positive red ratio and `k` adjacent
enemy cells that each hold sufficient Nutrition, provided the parasite also
has room for the drained units below its capacity, one tick of the
parasitism step removes in aggregate `acc₀ + k·c − acc₁` Nutrition units
from the victims (where `c = redRatio × maxParasitismRate × dt` and
`acc₀, acc₁ ∈ [0, 1)` are the shared accumulator before and after), adds
exactly the same amount to the parasite's Nutrition while leaving its Sun
and Soil untouched — so the aggregate drain is within one unit of
`k × (red/100) × maxParasitismRate × dt` per tick, i.e. rate
`k × (red/100) × maxParasitismRate` per second. -/
theorem C6_parasitism_multiplicative (redRatio maxRate dt acc0 : ℚ)
    (parasite : EnergyWallet) (cap : ℚ) (victims : List ℚ)
    (hr0 : 0 < redRatio) (hmr : 0 ≤ maxRate) (hdt : 0 ≤ dt)
    (hacc0 : 0 ≤ acc0) (hacc1 : acc0 < 1)
    (hvs : ∀ v ∈ victims, redRatio * maxRate * dt + 1 ≤ v)
    (hcap : parasite.totalUnits +
      (acc0 + victims.length * (redRatio * maxRate * dt)) ≤ cap) :
    (applyParasitism redRatio maxRate dt acc0 parasite cap victims).2.1.nutrition -
        parasite.nutrition =
      victims.sum - (applyParasitism redRatio maxRate dt acc0 parasite cap victims).2.2.sum ∧
    (applyParasitism redRatio maxRate dt acc0 parasite cap victims).2.1.sun = parasite.sun ∧
    (applyParasitism redRatio maxRate dt acc0 parasite cap victims).2.1.soil = parasite.soil ∧
    victims.length * (redRatio * maxRate * dt) - 1 <
      victims.sum - (applyParasitism redRatio maxRate dt acc0 parasite cap victims).2.2.sum ∧
    victims.sum - (applyParasitism redRatio maxRate dt acc0 parasite cap victims).2.2.sum <
      victims.length * (redRatio * maxRate * dt) + 1 := by
  have hc : 0 ≤ redRatio * maxRate * dt := by positivity
  by_cases hnil : victims = []
  · subst hnil
    unfold applyParasitism
    rw [if_neg (not_le.mpr hr0), if_pos rfl]
    simp
  · have happ : applyParasitism redRatio maxRate dt acc0 parasite cap victims =
        parasitismFold (redRatio * maxRate * dt) cap victims acc0 parasite := by
      unfold applyParasitism
      rw [if_neg (not_le.mpr hr0), if_neg hnil]
    rw [happ]
    obtain ⟨r1, r2, r3, r4, r5, r6⟩ :=
      parasitismFold_spec (redRatio * maxRate * dt) cap hc victims acc0 parasite
        hacc0 hacc1 hvs hcap
    refine ⟨?_, r3, r4, ?_, ?_⟩
    · rw [r5, r6]
      ring
    · rw [r6]
      linarith
    · rw [r6]
      linarith

/-- Witness for C6: red ratio 1 (a 100%-red cell), rate 10, `dt = 1/10`,
two enemy neighbors holding 2 units each, parasite empty with capacity 300:
the aggregate drain over the tick is within one unit of `2 × 10 × 1/10`. -/
theorem C6_parasitism_multiplicative_witness :
    (applyParasitism 1 10 (1/10) 0 ⟨0, 0, 0⟩ 300 [2, 2]).2.1.nutrition - 0 =
      ([2, 2] : List ℚ).sum - (applyParasitism 1 10 (1/10) 0 ⟨0, 0, 0⟩ 300 [2, 2]).2.2.sum ∧
    ([2, 2] : List ℚ).length * (1 * 10 * (1/10)) - 1 <
      ([2, 2] : List ℚ).sum - (applyParasitism 1 10 (1/10) 0 ⟨0, 0, 0⟩ 300 [2, 2]).2.2.sum := by
  have h := C6_parasitism_multiplicative 1 10 (1/10) 0 ⟨0, 0, 0⟩ 300 [2, 2]
    (by norm_num) (by norm_num) (by norm_num) (by norm_num) (by norm_num)
    (by
      intro v hv
      simp only [List.mem_cons, List.mem_singleton, List.not_mem_nil, or_false] at hv
      rcases hv with rfl | rfl <;> norm_num)
    (by norm_num [EnergyWallet.totalUnits])
  exact ⟨h.1, h.2.2.2.1⟩


lemma adj8_iff (p q : ℤ × ℤ) :
    adj8 p q ↔ p ≠ q ∧ |q.1 - p.1| ≤ 1 ∧ |q.2 - p.2| ≤ 1 := by
  constructor
  · rintro ⟨o, ho, rfl⟩
    fin_cases ho <;>
      refine ⟨fun hc => ?_, by rw [abs_le]; constructor <;> omega,
        by rw [abs_le]; constructor <;> omega⟩ <;>
      · obtain ⟨hc1, hc2⟩ := Prod.ext_iff.mp hc
        simp only at hc1 hc2
        omega
  · rintro ⟨hne, h1, h2⟩
    rw [abs_le] at h1 h2
    refine ⟨(q.1 - p.1, q.2 - p.2), ?_, ?_⟩
    · have hnz : ¬ (q.1 - p.1 = 0 ∧ q.2 - p.2 = 0) := by
        rintro ⟨hz1, hz2⟩
        exact hne (Prod.ext (by omega) (by omega)).symm
      simp only [neighborOffsets, List.mem_cons, List.not_mem_nil, or_false, Prod.mk.injEq]
      omega
    · exact Prod.ext (by ring) (by ring)

lemma adj8_symm {p q : ℤ × ℤ} (h : adj8 p q) : adj8 q p := by
  rw [adj8_iff] at h ⊢
  obtain ⟨hne, h1, h2⟩ := h
  refine ⟨hne.symm, ?_, ?_⟩
  · rw [abs_sub_comm]; exact h1
  · rw [abs_sub_comm]; exact h2

lemma flood_nil (pd : List CellRec) : flood [] pd = ([], pd) := by
  rw [flood]

lemma flood_cons (f : CellRec) (fs pd : List CellRec) :
    flood (f :: fs) pd =
      ((pd.filter fun q => cellAdjB f q) ++
        (flood (fs ++ pd.filter fun q => cellAdjB f q)
          (pd.filter fun q => ! cellAdjB f q)).1,
        (flood (fs ++ pd.filter fun q => cellAdjB f q)
          (pd.filter fun q => ! cellAdjB f q)).2) := by
  rw [flood]

lemma flood_perm (fr pd : List CellRec) :
    ((flood fr pd).1 ++ (flood fr pd).2).Perm pd := by
  induction fr, pd using flood.induct with
  | case1 pd => rw [flood_nil]; simp
  | case2 pd f fs nbrs rest ih =>
    rw [flood_cons]
    simp only [nbrs, rest] at ih ⊢
    rw [List.append_assoc]
    exact (List.Perm.append_left _ ih).trans (List.filter_append_perm _ pd)

lemma cellAdjB_iff (a b : CellRec) : cellAdjB a b = true ↔ adj8 a.pos b.pos := by
  unfold cellAdjB
  exact decide_eq_true_iff

lemma flood_reached_subset (fr pd : List CellRec) :
    ∀ x ∈ (flood fr pd).1, x ∈ pd := by
  intro x hx
  exact (flood_perm fr pd).subset (List.mem_append_left _ hx)

lemma flood_rest_subset (fr pd : List CellRec) :
    ∀ x ∈ (flood fr pd).2, x ∈ pd := by
  intro x hx
  exact (flood_perm fr pd).subset (List.mem_append_right _ hx)

lemma flood_not_adj (fr pd : List CellRec) :
    ∀ y ∈ (flood fr pd).2, ∀ x, (x ∈ fr ∨ x ∈ (flood fr pd).1) → ¬ adj8 x.pos y.pos := by
  induction fr, pd using flood.induct with
  | case1 pd =>
    intro y _ x hx
    rw [flood_nil] at hx
    simp only [List.not_mem_nil, or_self] at hx
  | case2 pd f fs nbrs rest ih =>
    intro y hy x hx
    rw [flood_cons] at hy hx
    simp only [nbrs, rest] at ih hy hx
    have hyrest : y ∈ pd.filter fun q => ! cellAdjB f q :=
      flood_rest_subset _ _ y hy
    rcases hx with hx | hx
    · rcases List.mem_cons.mp hx with rfl | hx
      · intro hadj
        have hby := (List.mem_filter.mp hyrest).2
        rw [Bool.not_eq_eq_eq_not, Bool.not_true] at hby
        exact absurd ((cellAdjB_iff x y).mpr hadj) (by rw [hby]; exact Bool.false_ne_true)
      · exact ih y hy x (Or.inl (List.mem_append_left _ hx))
    · rcases List.mem_append.mp hx with hx | hx
      · exact ih y hy x (Or.inl (List.mem_append_right _ hx))
      · exact ih y hy x (Or.inr hx)

lemma adjWithin_mono {S T : List CellRec} (hsub : ∀ x ∈ S, x ∈ T) {a b : CellRec}
    (h : adjWithin S a b) : adjWithin T a b :=
  ⟨hsub a h.1, hsub b h.2.1, h.2.2⟩

lemma ConnIn_mono {S T : List CellRec} (hsub : ∀ x ∈ S, x ∈ T) {a b : CellRec}
    (h : ConnIn S a b) : ConnIn T a b :=
  Relation.ReflTransGen.mono (fun _ _ hw => adjWithin_mono hsub hw) h

lemma flood_reach (fr pd : List CellRec) :
    ∀ x ∈ (flood fr pd).1, ∃ s ∈ fr, ConnIn (fr ++ pd) s x := by
  induction fr, pd using flood.induct with
  | case1 pd =>
    intro x hx
    rw [flood_nil] at hx
    exact absurd hx (List.not_mem_nil x)
  | case2 pd f fs nbrs rest ih =>
    intro x hx
    rw [flood_cons] at hx
    simp only [nbrs, rest] at ih hx
    have hsub : ∀ z, z ∈ (fs ++ pd.filter fun q => cellAdjB f q) ++
        (pd.filter fun q => ! cellAdjB f q) → z ∈ (f :: fs) ++ pd := by
      intro z hz
      rcases List.mem_append.mp hz with hz | hz
      · rcases List.mem_append.mp hz with hz | hz
        · exact List.mem_append_left _ (List.mem_cons_of_mem _ hz)
        · exact List.mem_append_right _ (List.mem_filter.mp hz).1
      · exact List.mem_append_right _ (List.mem_filter.mp hz).1
    rcases List.mem_append.mp hx with hx | hx
    · -- x is a direct neighbor of f
      refine ⟨f, List.mem_cons_self _ _, ?_⟩
      refine Relation.ReflTransGen.single ?_
      refine ⟨List.mem_append_left _ (List.mem_cons_self _ _),
        List.mem_append_right _ (List.mem_filter.mp hx).1, ?_⟩
      exact (cellAdjB_iff f x).mp (List.mem_filter.mp hx).2
    · -- x was reached deeper in the flood
      obtain ⟨s, hs, hconn⟩ := ih x hx
      have hconn2 : ConnIn ((f :: fs) ++ pd) s x := ConnIn_mono hsub hconn
      rcases List.mem_append.mp hs with hs | hs
      · exact ⟨s, List.mem_cons_of_mem _ hs, hconn2⟩
      · -- s is itself a neighbor of f: prepend the edge f — s
        refine ⟨f, List.mem_cons_self _ _, Relation.ReflTransGen.head ?_ hconn2⟩
        refine ⟨List.mem_append_left _ (List.mem_cons_self _ _),
          List.mem_append_right _ (List.mem_filter.mp hs).1, ?_⟩
        exact (cellAdjB_iff f s).mp (List.mem_filter.mp hs).2

lemma ConnIn_symm {S : List CellRec} {a b : CellRec} (h : ConnIn S a b) : ConnIn S b a :=
  Relation.ReflTransGen.symmetric
    (fun _ _ hw => ⟨hw.2.1, hw.1, adj8_symm hw.2.2⟩) h

lemma flood_rest_length_le (fr pd : List CellRec) :
    (flood fr pd).2.length ≤ pd.length := by
  have h := (flood_perm fr pd).length_eq
  rw [List.length_append] at h
  omega

lemma componentsAux_zero (cells : List CellRec) : componentsAux 0 cells = [] := rfl

lemma componentsAux_nil (fuel : ℕ) : componentsAux (fuel + 1) [] = [] := rfl

lemma componentsAux_cons (fuel : ℕ) (c : CellRec) (rest : List CellRec) :
    componentsAux (fuel + 1) (c :: rest) =
      (c :: (flood [c] rest).1) :: componentsAux fuel (flood [c] rest).2 := rfl

lemma componentsAux_join_perm :
    ∀ (fuel : ℕ) (cells : List CellRec), cells.length ≤ fuel →
      ((componentsAux fuel cells).flatten).Perm cells
  | 0, cells, h => by
    have : cells = [] := List.length_eq_zero.mp (Nat.le_zero.mp h)
    subst this
    simp [componentsAux_zero]
  | fuel + 1, [], _ => by simp [componentsAux_nil]
  | fuel + 1, c :: rest, h => by
    rw [componentsAux_cons]
    have hlen : (flood [c] rest).2.length ≤ fuel := by
      have := flood_rest_length_le [c] rest
      simp only [List.length_cons] at h
      omega
    have ih := componentsAux_join_perm fuel (flood [c] rest).2 hlen
    simp only [List.flatten_cons, List.cons_append]
    exact List.Perm.cons c ((List.Perm.append_left _ ih).trans (flood_perm [c] rest))

lemma componentsAux_mem_subset {fuel : ℕ} {cells : List CellRec}
    (h : cells.length ≤ fuel) {g : List CellRec} (hg : g ∈ componentsAux fuel cells) :
    ∀ x ∈ g, x ∈ cells := by
  intro x hx
  exact (componentsAux_join_perm fuel cells h).subset
    (List.mem_flatten.mpr ⟨g, hg, hx⟩)

lemma componentsAux_conn :
    ∀ (fuel : ℕ) (cells : List CellRec), cells.length ≤ fuel →
      ∀ g ∈ componentsAux fuel cells, ∀ x ∈ g, ∀ y ∈ g, ConnIn cells x y
  | 0, cells, h, g, hg => by
    rw [componentsAux_zero] at hg
    exact absurd hg (List.not_mem_nil g)
  | fuel + 1, [], _, g, hg => by
    rw [componentsAux_nil] at hg
    exact absurd hg (List.not_mem_nil g)
  | fuel + 1, c :: rest, h, g, hg => by
    rw [componentsAux_cons] at hg
    have hlen : (flood [c] rest).2.length ≤ fuel := by
      have := flood_rest_length_le [c] rest
      simp only [List.length_cons] at h
      omega
    rcases List.mem_cons.mp hg with rfl | hg
    · -- the head group: every member is connected to c
      have hconn_c : ∀ x ∈ c :: (flood [c] rest).1, ConnIn (c :: rest) c x := by
        intro x hx
        rcases List.mem_cons.mp hx with rfl | hx
        · exact Relation.ReflTransGen.refl
        · obtain ⟨s, hs, hconn⟩ := flood_reach [c] rest x hx
          rcases List.mem_cons.mp hs with rfl | hs
          · exact hconn
          · exact absurd hs (List.not_mem_nil s)
      intro x hx y hy
      exact (ConnIn_symm (hconn_c x hx)).trans (hconn_c y hy)
    · -- a deeper group: lift connectivity from the leftover cells
      intro x hx y hy
      have := componentsAux_conn fuel (flood [c] rest).2 hlen g hg x hx y hy
      refine ConnIn_mono ?_ this
      intro z hz
      exact List.mem_cons_of_mem _ (flood_rest_subset [c] rest z hz)

lemma componentsAux_pairwise_not_adj :
    ∀ (fuel : ℕ) (cells : List CellRec), cells.length ≤ fuel →
      (componentsAux fuel cells).Pairwise
        fun g h => ∀ x ∈ g, ∀ y ∈ h, ¬ adj8 x.pos y.pos
  | 0, cells, _ => by
    rw [componentsAux_zero]
    exact List.Pairwise.nil
  | fuel + 1, [], _ => by
    rw [componentsAux_nil]
    exact List.Pairwise.nil
  | fuel + 1, c :: rest, h => by
    rw [componentsAux_cons]
    have hlen : (flood [c] rest).2.length ≤ fuel := by
      have := flood_rest_length_le [c] rest
      simp only [List.length_cons] at h
      omega
    refine List.Pairwise.cons ?_ (componentsAux_pairwise_not_adj fuel (flood [c] rest).2 hlen)
    intro g hg x hx y hy
    have hyrest : y ∈ (flood [c] rest).2 := componentsAux_mem_subset hlen hg y hy
    have := flood_not_adj [c] rest y hyrest x
    rcases List.mem_cons.mp hx with rfl | hx
    · exact this (Or.inl (List.mem_cons_self _ _))
    · exact this (Or.inr hx)

lemma insertDesc_perm (g : List CellRec) (l : List (List CellRec)) :
    (insertDesc g l).Perm (g :: l) := by
  induction l with
  | nil => exact List.Perm.refl _
  | cons h t ih =>
    by_cases hc : h.length ≤ g.length
    · simp [insertDesc, hc]
    · simp only [insertDesc, if_neg hc]
      exact (ih.cons h).trans (List.Perm.swap g h t)

lemma sortGroupsDesc_perm (l : List (List CellRec)) : (sortGroupsDesc l).Perm l := by
  induction l with
  | nil => exact List.Perm.refl _
  | cons g gs ih => exact (insertDesc_perm g (sortGroupsDesc gs)).trans (ih.cons g)

lemma insertDesc_head_ge (g : List CellRec) (l : List (List CellRec))
    (hl : ∀ x ∈ l, x.length ≤ l.headI.length) :
    ∀ x ∈ insertDesc g l, x.length ≤ (insertDesc g l).headI.length := by
  induction l with
  | nil =>
    intro x hx
    simp only [insertDesc, List.mem_singleton] at hx
    subst hx
    exact le_refl _
  | cons h t ih =>
    by_cases hc : h.length ≤ g.length
    · simp only [insertDesc, if_pos hc]
      intro x hx
      simp only [List.headI]
      rcases List.mem_cons.mp hx with rfl | hx
      · exact le_refl _
      · exact le_trans (hl x hx) (by simpa using hc)
    · simp only [insertDesc, if_neg hc]
      intro x hx
      simp only [List.headI]
      rcases List.mem_cons.mp hx with rfl | hx
      · exact le_refl _
      · have hx2 := (insertDesc_perm g t).subset hx
        rcases List.mem_cons.mp hx2 with rfl | hx3
        · exact le_of_lt (not_le.mp hc)
        · exact le_trans (hl x (List.mem_cons_of_mem _ hx3)) (by simp [List.headI])

lemma sortGroupsDesc_head_ge (l : List (List CellRec)) :
    ∀ x ∈ sortGroupsDesc l, x.length ≤ (sortGroupsDesc l).headI.length := by
  induction l with
  | nil => intro x hx; exact absurd hx (List.not_mem_nil x)
  | cons g gs ih => exact insertDesc_head_ge g (sortGroupsDesc gs) ih

lemma mem_zip_map_self {α β : Type} (f : α → β) (l : List α) (p : β × α)
    (hp : p ∈ (l.map f).zip l) : ∃ a ∈ l, p = (f a, a) := by
  induction l with
  | nil => exact absurd hp (by simp)
  | cons a t ih =>
    simp only [List.map_cons, List.zip_cons_cons, List.mem_cons] at hp
    rcases hp with rfl | hp
    · exact ⟨a, List.mem_cons_self _ _, rfl⟩
    · obtain ⟨b, hb, rfl⟩ := ih hp
      exact ⟨b, List.mem_cons_of_mem _ hb, rfl⟩

lemma Dna.clone_eq_self {d : Dna} (h : d.total = TOTAL_POINTS) : d.clone = d := by
  unfold Dna.clone mkDna Dna.normalize
  have h0 : (⟨d.green, d.red, d.brown, d.yellow, d.pink, d.blue, d.purple⟩ : Dna).total
      = d.total := rfl
  have hc0 : ¬ (⟨d.green, d.red, d.brown, d.yellow, d.pink, d.blue, d.purple⟩ : Dna).total = 0 := by
    rw [h0, h]
    norm_num [TOTAL_POINTS]
  have hc1 : (⟨d.green, d.red, d.brown, d.yellow, d.pink, d.blue, d.purple⟩ : Dna).total
      = TOTAL_POINTS := by rw [h0, h]
  rw [if_neg hc0, if_pos hc1]

lemma componentsOf_length_le_one {cells : List CellRec} (h : cells.length ≤ 1) :
    (componentsOf cells).length ≤ 1 := by
  match cells, h with
  | [], _ =>
    show (componentsAux 0 []).length ≤ 1
    rw [componentsAux_zero]
    simp
  | [c], _ =>
    show (componentsAux 1 [c]).length ≤ 1
    rw [componentsAux_cons 0 c []]
    rw [componentsAux_zero]
    simp

lemma headI_mem {l : List (List CellRec)} (h : l ≠ []) : l.headI ∈ l := by
  cases l with
  | nil => exact absurd rfl h
  | cons a t => exact List.mem_cons_self _ _

lemma splitFungus_eq (f : FungusRec) (cells : List CellRec) (nextId : ℕ)
    (h1 : ¬ cells.length ≤ 1) (h2 : ¬ (componentsOf cells).length ≤ 1) :
    splitFungus f cells nextId =
      (f, (sortGroupsDesc (componentsOf cells)).headI) ::
        ((sortGroupsDesc (componentsOf cells)).tail.enum.map fun ig =>
          (⟨nextId + ig.1, f.dna.clone, f.generation⟩,
            ig.2.map fun c => recreateCell c (maxEnergyCapacity f.dna.clone.pink))) := by
  unfold splitFungus
  rw [if_neg h1, if_neg h2]

/-- Claim C5: one split pass on an organism whose cells form more than one
8-neighborhood connected component.  The groups the flood fill produces are
the genuine connected components (they partition the cells, each group is
internally connected within the organism's cells, and no adjacency crosses
groups); the pass yields one organism per component; the largest component
keeps the original organism; every other component is rehomed onto a fresh
organism with the cloned (identical) trait vector and the same generation,
its cells recreated at the same positions with the same total energy and
the same mushroom state. -/
theorem C5_split_correctness (f : FungusRec) (cells : List CellRec) (nextId : ℕ)
    (hdna : f.dna.total = TOTAL_POINTS)
    (hen : ∀ c ∈ cells, IsIntValue c.wallet.totalUnits ∧ 0 ≤ c.wallet.totalUnits ∧
      c.wallet.totalUnits ≤ maxEnergyCapacity f.dna.pink)
    (hid : f.id < nextId)
    (hmany : 1 < (componentsOf cells).length) :
    ((componentsOf cells).flatten.Perm cells) ∧
    (∀ g ∈ componentsOf cells, ∀ x ∈ g, ∀ y ∈ g, ConnIn cells x y) ∧
    ((componentsOf cells).Pairwise fun g h => ∀ x ∈ g, ∀ y ∈ h, ¬ adj8 x.pos y.pos) ∧
    (splitFungus f cells nextId).length = (componentsOf cells).length ∧
    ((splitFungus f cells nextId).headI.1 = f ∧
      (splitFungus f cells nextId).headI.2 ∈ componentsOf cells ∧
      ∀ g ∈ componentsOf cells, g.length ≤ (splitFungus f cells nextId).headI.2.length) ∧
    (∀ e ∈ (splitFungus f cells nextId).tail,
      e.1.dna = f.dna ∧ e.1.generation = f.generation ∧ f.id < e.1.id ∧
      ∃ g ∈ componentsOf cells,
        e.2.map (fun c => c.pos) = g.map (fun c => c.pos) ∧
        e.2.map (fun c => c.wallet.totalUnits) = g.map (fun c => c.wallet.totalUnits) ∧
        e.2.map (fun c => c.hasMushroom) = g.map (fun c => c.hasMushroom) ∧
        (∀ p ∈ e.2.zip g, p.1.hasMushroom = true → p.1.mushroomGrowth = p.2.mushroomGrowth)) := by
  have hfuel : cells.length ≤ cells.length := le_refl _
  have hclone : f.dna.clone = f.dna := Dna.clone_eq_self hdna
  have hcells2 : ¬ cells.length ≤ 1 := by
    intro hle
    exact absurd (componentsOf_length_le_one hle) (by omega)
  have hg2 : ¬ (componentsOf cells).length ≤ 1 := by omega
  have heq := splitFungus_eq f cells nextId hcells2 hg2
  have hsortperm := sortGroupsDesc_perm (componentsOf cells)
  have hsortlen : (sortGroupsDesc (componentsOf cells)).length = (componentsOf cells).length :=
    hsortperm.length_eq
  have hsortne : sortGroupsDesc (componentsOf cells) ≠ [] := by
    intro hnil
    rw [hnil] at hsortlen
    simp at hsortlen
    omega
  refine ⟨componentsAux_join_perm _ _ hfuel, componentsAux_conn _ _ hfuel,
    componentsAux_pairwise_not_adj _ _ hfuel, ?_, ⟨?_, ?_, ?_⟩, ?_⟩
  · rw [heq]
    simp only [List.length_cons, List.length_map, List.enum_length, List.length_tail]
    omega
  · rw [heq]
    rfl
  · rw [heq]
    show (sortGroupsDesc (componentsOf cells)).headI ∈ componentsOf cells
    exact hsortperm.subset (headI_mem hsortne)
  · rw [heq]
    intro g hg
    exact sortGroupsDesc_head_ge (componentsOf cells) g (hsortperm.symm.subset hg)
  · rw [heq]
    simp only [List.tail_cons]
    intro e he
    obtain ⟨ig, hig, rfl⟩ := List.mem_map.mp he
    have hgmem : ig.2 ∈ componentsOf cells := by
      have h1 : ig.2 ∈ (sortGroupsDesc (componentsOf cells)).tail := by
        have := List.mem_map_of_mem Prod.snd hig
        rwa [List.enum_map_snd] at this
      exact hsortperm.subset (List.mem_of_mem_tail h1)
    have hsubcells : ∀ c ∈ ig.2, c ∈ cells :=
      componentsAux_mem_subset hfuel hgmem
    refine ⟨by simp [hclone], rfl, by simp; omega, ig.2, hgmem, ?_, ?_, ?_, ?_⟩
    · rw [List.map_map]
      exact List.map_congr_left fun c _ => rfl
    · rw [List.map_map]
      refine List.map_congr_left fun c hc => ?_
      obtain ⟨hint, h0, hcap⟩ := hen c (hsubcells c hc)
      show (recreateCell c (maxEnergyCapacity f.dna.clone.pink)).wallet.totalUnits
          = c.wallet.totalUnits
      rw [hclone]
      show (mkCellWallet c.wallet.totalUnits (maxEnergyCapacity f.dna.pink)).totalUnits
          = c.wallet.totalUnits
      have hmk : (mkCellWallet c.wallet.totalUnits (maxEnergyCapacity f.dna.pink)).totalUnits
          = min ((⌊c.wallet.totalUnits⌋ : ℤ) : ℚ) (maxEnergyCapacity f.dna.pink) := by
        show (0:ℚ) + 0 + min ((⌊c.wallet.totalUnits⌋ : ℤ) : ℚ) (maxEnergyCapacity f.dna.pink)
            = _
        ring
      rw [hmk, hint.floor_cast_eq, min_eq_left hcap]
    · rw [List.map_map]
      exact List.map_congr_left fun c _ => rfl
    · intro p hp
      obtain ⟨c, _, rfl⟩ := mem_zip_map_self _ _ p hp
      intro hmush
      show (recreateCell c _).mushroomGrowth = c.mushroomGrowth
      unfold recreateCell
      simp only
      have hcm : c.hasMushroom = true := hmush
      rw [if_pos hcm]


/-- Witness for C5: an organism (id 3, generation 2) whose seven cells form
a 5-cell vertical strip at x = 0 and a far-away 2-cell strip at x = 10.
One split pass yields exactly two organisms; the 5-cell component keeps the
original organism and the 2-cell component is rehomed with identical trait
vector and generation. -/
theorem C5_split_correctness_witness :
    (componentsOf [⟨(0,0), ⟨0,0,50⟩, false, 0⟩, ⟨(0,1), ⟨0,0,50⟩, false, 0⟩,
      ⟨(0,2), ⟨0,0,50⟩, false, 0⟩, ⟨(0,3), ⟨0,0,50⟩, false, 0⟩,
      ⟨(0,4), ⟨0,0,50⟩, false, 0⟩, ⟨(10,10), ⟨0,0,50⟩, false, 0⟩,
      ⟨(10,11), ⟨0,0,50⟩, false, 0⟩]).length = 2 ∧
    (splitFungus ⟨3, mkDna 15 10 15 15 15 15 15, 2⟩
      [⟨(0,0), ⟨0,0,50⟩, false, 0⟩, ⟨(0,1), ⟨0,0,50⟩, false, 0⟩,
       ⟨(0,2), ⟨0,0,50⟩, false, 0⟩, ⟨(0,3), ⟨0,0,50⟩, false, 0⟩,
       ⟨(0,4), ⟨0,0,50⟩, false, 0⟩, ⟨(10,10), ⟨0,0,50⟩, false, 0⟩,
       ⟨(10,11), ⟨0,0,50⟩, false, 0⟩] 7).length = 2 ∧
    (splitFungus ⟨3, mkDna 15 10 15 15 15 15 15, 2⟩
      [⟨(0,0), ⟨0,0,50⟩, false, 0⟩, ⟨(0,1), ⟨0,0,50⟩, false, 0⟩,
       ⟨(0,2), ⟨0,0,50⟩, false, 0⟩, ⟨(0,3), ⟨0,0,50⟩, false, 0⟩,
       ⟨(0,4), ⟨0,0,50⟩, false, 0⟩, ⟨(10,10), ⟨0,0,50⟩, false, 0⟩,
       ⟨(10,11), ⟨0,0,50⟩, false, 0⟩] 7).headI.1 = ⟨3, mkDna 15 10 15 15 15 15 15, 2⟩ ∧
    (splitFungus ⟨3, mkDna 15 10 15 15 15 15 15, 2⟩
      [⟨(0,0), ⟨0,0,50⟩, false, 0⟩, ⟨(0,1), ⟨0,0,50⟩, false, 0⟩,
       ⟨(0,2), ⟨0,0,50⟩, false, 0⟩, ⟨(0,3), ⟨0,0,50⟩, false, 0⟩,
       ⟨(0,4), ⟨0,0,50⟩, false, 0⟩, ⟨(10,10), ⟨0,0,50⟩, false, 0⟩,
       ⟨(10,11), ⟨0,0,50⟩, false, 0⟩] 7).headI.2.length = 5 ∧
    ((splitFungus ⟨3, mkDna 15 10 15 15 15 15 15, 2⟩
      [⟨(0,0), ⟨0,0,50⟩, false, 0⟩, ⟨(0,1), ⟨0,0,50⟩, false, 0⟩,
       ⟨(0,2), ⟨0,0,50⟩, false, 0⟩, ⟨(0,3), ⟨0,0,50⟩, false, 0⟩,
       ⟨(0,4), ⟨0,0,50⟩, false, 0⟩, ⟨(10,10), ⟨0,0,50⟩, false, 0⟩,
       ⟨(10,11), ⟨0,0,50⟩, false, 0⟩] 7).tail.map fun e => e.2.length) = [2] ∧
    (∀ e ∈ (splitFungus ⟨3, mkDna 15 10 15 15 15 15 15, 2⟩
      [⟨(0,0), ⟨0,0,50⟩, false, 0⟩, ⟨(0,1), ⟨0,0,50⟩, false, 0⟩,
       ⟨(0,2), ⟨0,0,50⟩, false, 0⟩, ⟨(0,3), ⟨0,0,50⟩, false, 0⟩,
       ⟨(0,4), ⟨0,0,50⟩, false, 0⟩, ⟨(10,10), ⟨0,0,50⟩, false, 0⟩,
       ⟨(10,11), ⟨0,0,50⟩, false, 0⟩] 7).tail,
      e.1.dna = (mkDna 15 10 15 15 15 15 15) ∧ e.1.generation = 2) := by
  have hcomp : (componentsOf [⟨(0,0), ⟨0,0,50⟩, false, 0⟩, ⟨(0,1), ⟨0,0,50⟩, false, 0⟩,
      ⟨(0,2), ⟨0,0,50⟩, false, 0⟩, ⟨(0,3), ⟨0,0,50⟩, false, 0⟩,
      ⟨(0,4), ⟨0,0,50⟩, false, 0⟩, ⟨(10,10), ⟨0,0,50⟩, false, 0⟩,
      ⟨(10,11), ⟨0,0,50⟩, false, 0⟩]).length = 2 := by
    norm_num [componentsOf, componentsAux, flood, cellAdjB, adj8, neighborOffsets]
  have hpink : (mkDna 15 10 15 15 15 15 15).pink = 38 := by
    norm_num [mkDna, Dna.normalize, Dna.total, TOTAL_POINTS, MAX_TRAIT_VALUE, jround,
      Dna.traitPairs, allTraits, Dna.getTraitValue, sortAsc, insertAsc, distribute,
      jsign, Dna.setTraitValue, roundScaled, capTraits]
  have h := C5_split_correctness ⟨3, mkDna 15 10 15 15 15 15 15, 2⟩
    [⟨(0,0), ⟨0,0,50⟩, false, 0⟩, ⟨(0,1), ⟨0,0,50⟩, false, 0⟩,
     ⟨(0,2), ⟨0,0,50⟩, false, 0⟩, ⟨(0,3), ⟨0,0,50⟩, false, 0⟩,
     ⟨(0,4), ⟨0,0,50⟩, false, 0⟩, ⟨(10,10), ⟨0,0,50⟩, false, 0⟩,
     ⟨(10,11), ⟨0,0,50⟩, false, 0⟩] 7
    (Dna.normalize_total _)
    (by
      intro c hc
      have hw : c.wallet = ⟨0, 0, 50⟩ := by
        simp only [List.mem_cons, List.not_mem_nil, or_false] at hc
        rcases hc with rfl | rfl | rfl | rfl | rfl | rfl | rfl <;> rfl
      rw [hw]
      refine ⟨⟨50, by norm_num [EnergyWallet.totalUnits]⟩,
        by norm_num [EnergyWallet.totalUnits], ?_⟩
      show EnergyWallet.totalUnits ⟨0, 0, 50⟩ ≤ maxEnergyCapacity (mkDna 15 10 15 15 15 15 15).pink
      rw [hpink]
      norm_num [EnergyWallet.totalUnits, maxEnergyCapacity])
    (by norm_num)
    (by rw [hcomp]; norm_num)
  obtain ⟨_, _, _, hlen, ⟨hhead1, _, _⟩, htail⟩ := h
  refine ⟨hcomp, by rw [hlen, hcomp], hhead1, ?_, ?_, ?_⟩
  · norm_num [splitFungus, componentsOf, componentsAux, flood, cellAdjB, adj8,
      neighborOffsets, sortGroupsDesc, insertDesc, List.headI]
  · norm_num [splitFungus, componentsOf, componentsAux, flood, cellAdjB, adj8,
      neighborOffsets, sortGroupsDesc, insertDesc, recreateCell]
  · intro e he
    obtain ⟨hdna, hgen, _, _⟩ := htail e he
    exact ⟨hdna, hgen⟩

/-- Claim C9: a cell recreated during an organism split collapses its
per-kind energy breakdown: the new wallet holds zero Sun and zero Soil, and
`min(⌊old total⌋, capacity)` Nutrition — so under the wallet invariants
(integer counts within capacity) any Sun or Soil the old cell held becomes
Nutrition in the new cell, preserving the total. -/
theorem C9_split_energy_collapse (c : CellRec) (cap : ℚ)
    (hint : IsIntValue c.wallet.totalUnits) (hcap : c.wallet.totalUnits ≤ cap) :
    (recreateCell c cap).wallet.sun = 0 ∧
    (recreateCell c cap).wallet.soil = 0 ∧
    (recreateCell c cap).wallet.nutrition = min ((⌊c.wallet.totalUnits⌋ : ℤ) : ℚ) cap ∧
    (recreateCell c cap).wallet.nutrition =
      c.wallet.sun + c.wallet.soil + c.wallet.nutrition := by
  refine ⟨rfl, rfl, rfl, ?_⟩
  show min ((⌊c.wallet.totalUnits⌋ : ℤ) : ℚ) cap = _
  rw [hint.floor_cast_eq, min_eq_left hcap]
  rfl

/-- Witness for C9: an old cell holding 3 Sun, 4 Soil and 5 Nutrition under
capacity 100 is recreated with 0 Sun, 0 Soil and 12 Nutrition. -/
theorem C9_split_energy_collapse_witness :
    (recreateCell ⟨(1,1), ⟨3, 4, 5⟩, false, 0⟩ 100).wallet.sun = 0 ∧
    (recreateCell ⟨(1,1), ⟨3, 4, 5⟩, false, 0⟩ 100).wallet.soil = 0 ∧
    (recreateCell ⟨(1,1), ⟨3, 4, 5⟩, false, 0⟩ 100).wallet.nutrition = 12 := by
  have h := C9_split_energy_collapse ⟨(1,1), ⟨3, 4, 5⟩, false, 0⟩ 100
    ⟨12, by norm_num [EnergyWallet.totalUnits]⟩
    (by norm_num [EnergyWallet.totalUnits])
  refine ⟨h.1, h.2.1, ?_⟩
  rw [h.2.2.2]
  norm_num

/-- Claim C10: an organism created by spore germination always has
generation 0 (`new Fungus(spore.dna, 0)`), whatever the parent organism's
generation was (the spore only records the parent's id); organism splitting
is the only pathway that propagates the parent's generation — every
organism a split pass produces carries exactly the original generation,
and the spore pathway never increments it. -/
theorem C10_generation_pathways (s : SporeRec) (nextId : ℕ)
    (f : FungusRec) (cells : List CellRec) (nid2 : ℕ) :
    (germinateSpore s nextId).1.generation = 0 ∧
    (∀ e ∈ splitFungus f cells nid2, e.1.generation = f.generation) := by
  refine ⟨rfl, ?_⟩
  intro e he
  unfold splitFungus at he
  by_cases h1 : cells.length ≤ 1
  · rw [if_pos h1] at he
    simp only [List.mem_singleton] at he
    rw [he]
  · rw [if_neg h1] at he
    by_cases h2 : (componentsOf cells).length ≤ 1
    · rw [if_pos h2] at he
      simp only [List.mem_singleton] at he
      rw [he]
    · rw [if_neg h2] at he
      simp only [List.mem_cons] at he
      rcases he with rfl | he
      · rfl
      · obtain ⟨ig, _, rfl⟩ := List.mem_map.mp he
        rfl


end MushroomSim
